import Mathlib

/-!
# ESP32 AT-command driver: connection table, accept queue and packet queue

A shallow embedding of `components/esp32-driver/ESP32/ESP32.cpp`.

* The object state is the record `ESP32`: the parser, the baud rate of the
  serial port, and (grouped in the record `Sockets`) the members the
  out-of-band handlers read and write.  The two pointer members `_packets`
  and `_packets_end` range over an explicit heap of `struct packet` nodes, so
  that the pointer surgery of `_packet_handler` and `recv` is modelled as
  written (a `struct packet **` is a `Link`: the head link `&_packets` or the
  link `&a->next` inside the node at address `a`).
* The AT parser is an external collaborator.  It is modelled by a script of
  replies (what the module will answer to the coming parser calls, together
  with the out-of-band notifications that fire during each call) and a log of
  the commands written.  A function returns `none` when the script runs out
  before the C++ function would return (or, for the queue scan of `recv`,
  when the list it walks has no end).
* Byte counts and offsets are natural numbers or integers; the conversions to
  `int32_t`, `uint32_t` and to the width of `_id_bits` are written out.
* Timeouts and the mutex are not modelled.
-/

namespace ESP32Driver

/-! ## Data model -/

/-- Address of a heap block returned by `malloc`; a null pointer is `none`. -/
abbrev Addr := Nat

/-- Modelled from the spec: the declaration of `struct packet` is in `ESP32.h`,
which is not among the sources; the fields are the ones `ESP32.cpp` reads and
writes (owning socket id, byte length, cursor, link to the next segment),
followed by the payload area (`data`). -/
structure packet where
  next : Option Addr
  id : Int
  len : Nat
  index : Nat
  data : List Nat
deriving DecidableEq

/-- A value of type `struct packet **`: `&_packets` or `&a->next`. -/
inductive Link where
  | head : Link
  | next : Addr → Link
deriving DecidableEq

/-- The values scanned by the `+CWLAP:(...)` format of `recv_ap`. -/
structure ApLine where
  sec : Int
  ssid : List Nat
  rssi : Int
  bssid : List Nat
  channel : Int
deriving DecidableEq

/-- The record `nsapi_wifi_ap_t`, also the content of a `WiFiAccessPoint`. -/
structure nsapi_wifi_ap_t where
  ssid : List Nat
  bssid : List Nat
  security : Int
  rssi : Int
  channel : Int
deriving DecidableEq

/-- What the serial stream holds when the `+IPD` trigger fires: the header
parsed by `",%d,%d:"` (`none` when it does not match), whether `malloc`
succeeds, the payload bytes that arrive within the read timeout, and the
content the allocated payload area has before the read (`junk`). -/
structure Frame where
  hdr : Option (Int × Nat)
  mallocOk : Bool
  avail : List Nat
  junk : List Nat
deriving DecidableEq

/-- The out-of-band triggers registered in `startup`: `"k,CONNECT"` and
`"k,CLOSED"` for `k = 0..4`, and `"+IPD"`. -/
inductive Oob where
  | connect : Fin 5 → Oob
  | closed : Fin 5 → Oob
  | ipd : Frame → Oob
deriving DecidableEq

/-- Outcome of one parser call or command exchange: whether it succeeded, the
out-of-band triggers that fired while it was reading, and the values scanned
(used by `recv_ap` only). -/
structure Reply where
  ok : Bool
  oob : List Oob
  line : ApLine
deriving DecidableEq

/-- The commands the driver writes to the module. -/
inductive Cmd where
  | rst : Cmd
  | uart : Cmd
  | cwlap : Cmd
  | cipstart : Int → String → String → Int → Cmd
  | cipsend : Int → Nat → List Nat → Cmd
  | cipclose : Int → Cmd
  | cipserver : Nat → Int → Cmd
deriving DecidableEq

/-- The AT parser seen from the driver: replies still to come and commands
written so far. -/
structure ATParser where
  script : List Reply
  sent : List Cmd
deriving DecidableEq

/-- The members of `class ESP32` that the out-of-band handlers and the socket
functions read and write, with the heap of `malloc`ed packets. -/
structure Sockets where
  heap : List (Addr × packet)
  _packets : Option Addr
  _packets_end : Link
  _id_bits : Nat
  _server_act : Bool
  _accept_id : List Int
deriving DecidableEq

/-- The state of an `ESP32` object. -/
structure ESP32 where
  parser : ATParser
  baud : Nat
  sock : Sockets
deriving DecidableEq

/-- A queued segment as the reader sees it: a `struct packet` without its link. -/
structure Segment where
  id : Int
  len : Nat
  index : Nat
  data : List Nat
deriving DecidableEq

/-! ## Machine integers and the heap -/

/-- Conversion of an integer value to `int32_t` (two's complement). -/
def toInt32 (x : Int) : Int := (x + 2 ^ 31) % 2 ^ 32 - 2 ^ 31

/-- The `int` expression `1 << id`; the shift is defined for `0 ≤ id < 31`
only, outside that range the model yields `0`. -/
def shl1 (id : Int) : Nat := if 0 ≤ id ∧ id < 31 then 1 <<< id.toNat else 0

/-- The test `(_id_bits & (1 << id)) == 0`. -/
def bitClear (bits : Nat) (id : Int) : Bool := bits &&& shl1 id == 0

/-- Modelled from the spec: the declaration of the member `_id_bits` is in
`ESP32.h`, which is not among the sources; the connection table is a bitmask
over the socket ids 0..4, taken here as an unsigned member of 8 bits.  The
properties proved about the ids 0..4 hold for every width of at least 5 bits. -/
def ID_BITS_WIDTH : Nat := 8

/-- The enumerator of `nsapi_security_t` in the network-socket API headers. -/
def NSAPI_SECURITY_UNKNOWN : Int := 255

/-- The error code of the network-socket API headers that `scan` returns. -/
def NSAPI_ERROR_DEVICE_ERROR : Int := -3012

/-- Read the node at address `a`, if that block is live. -/
def heapGet : List (Addr × packet) → Addr → Option packet
  | [], _ => none
  | (b, p) :: t, a => if b = a then some p else heapGet t a

/-- Overwrite the node at address `a`. -/
def heapSet : List (Addr × packet) → Addr → packet → List (Addr × packet)
  | [], _, _ => []
  | (b, q) :: t, a, p => if b = a then (b, p) :: t else (b, q) :: heapSet t a p

/-- The call `free(a)`. -/
def heapFree : List (Addr × packet) → Addr → List (Addr × packet)
  | [], _ => []
  | (b, q) :: t, a => if b = a then t else (b, q) :: heapFree t a

/-- The address a successful `malloc` returns: some block that is not live. -/
def fresh (h : List (Addr × packet)) : Addr := (h.map Prod.fst).foldr max 0 + 1

/-- The read `*p` of a link; `none` when the link lies in a block that is not live. -/
def deref (t : Sockets) : Link → Option (Option Addr)
  | Link.head => some t._packets
  | Link.next a => (heapGet t.heap a).map packet.next

/-- The store `*p = v`; a store into a block that is not live changes no live object. -/
def assign (t : Sockets) : Link → Option Addr → Sockets
  | Link.head, v => { t with _packets := v }
  | Link.next a, v =>
    match heapGet t.heap a with
    | none => t
    | some p => { t with heap := heapSet t.heap a ⟨v, p.id, p.len, p.index, p.data⟩ }

def packet.seg (p : packet) : Segment := ⟨p.id, p.len, p.index, p.data⟩

/-- The bytes of a segment not yet delivered. -/
def Segment.remaining (g : Segment) : List Nat := (g.data.drop g.index).take g.len

/-- Addresses reachable from pointer `x` by following `next`, at most `n` of them. -/
def reach (h : List (Addr × packet)) : Nat → Option Addr → List Addr
  | 0, _ => []
  | _ + 1, none => []
  | n + 1, some a =>
    match heapGet h a with
    | none => []
    | some p => a :: reach h n p.next

/-- Addresses of the queued packets, in queue order. -/
def chainAddrs (t : Sockets) : List Addr := reach t.heap t.heap.length t._packets

/-- The packet queue as the sequence of segments reachable from `_packets`. -/
def queue (t : Sockets) : List Segment :=
  (chainAddrs t).filterMap (fun a => (heapGet t.heap a).map packet.seg)

/-- The link after the last packet of a chain, the head link for the empty chain. -/
def lastLink : List Addr → Link
  | [] => Link.head
  | [a] => Link.next a
  | _ :: b :: t => lastLink (b :: t)

/-- Modelled from the spec: the AT parser is not among the sources.  Its
`read(data, size)` returns the number of bytes read, which is `size`, or -1
when they do not all arrive within the timeout (the convention the driver
relies on in `_parser.write(...) >= 0`). -/
def parser_read (avail : List Nat) (size : Nat) : Int :=
  if size ≤ avail.length then (size : Int) else -1

/-- The payload area of a packet of `amount` bytes after the read: the bytes
that arrived, followed by what the block held before. -/
def Frame.payload (f : Frame) (amount : Nat) : List Nat :=
  (f.avail.take amount ++ f.junk.drop (f.avail.take amount).length).take amount

namespace ESP32

/-! ## The driver -/

/-- The constructor; `script` is what the module is going to answer. -/
def ctor (script : List Reply) : ESP32 :=
  { parser := ⟨script, []⟩, baud := 115200,
    sock := { heap := [], _packets := none, _packets_end := Link.head, _id_bits := 0,
              _server_act := false, _accept_id := [] } }

/-- The loop `for (i = 0; i < _accept_id.size(); i++) if (id == _accept_id[i]) erase(begin() + i)`
of `socket_handler`, from index `i` on. -/
def eraseLoop (id : Int) (i : Nat) (v : List Int) : List Int :=
  if h : i < v.length then
    if id = v[i] then eraseLoop id (i + 1) (v.eraseIdx i)
    else eraseLoop id (i + 1) v
  else v
termination_by v.length - i
decreasing_by
  all_goals simp_wf
  · rw [List.length_eraseIdx]; simp [h]; omega
  · omega

def socket_handler (connect : Bool) (id : Int) (t : Sockets) : Sockets :=
  if connect then
    let t1 := { t with _id_bits := (t._id_bits ||| shl1 id) % 2 ^ ID_BITS_WIDTH }
    if t1._server_act then { t1 with _accept_id := t1._accept_id ++ [id] } else t1
  else
    let t1 := { t with _id_bits := (t._id_bits &&& (2 ^ 32 - 1 - shl1 id)) % 2 ^ ID_BITS_WIDTH }
    if t1._server_act then { t1 with _accept_id := eraseLoop id 0 t1._accept_id } else t1

/-- The `+IPD` handler.  The packet is freed, which leaves the heap as it was,
when `!(_parser.read(...))` holds, that is when the read returns 0; after any
other return value, -1 included, the packet is appended. -/
def _packet_handler (f : Frame) (t : Sockets) : Sockets :=
  match f.hdr with
  | none => t
  | some (id, amount) =>
    if f.mallocOk then
      if parser_read f.avail amount = 0 then t
      else
        let a := fresh t.heap
        let t1 := { t with heap := (a, ⟨none, id, amount, 0, f.payload amount⟩) :: t.heap }
        { assign t1 t1._packets_end (some a) with _packets_end := Link.next a }
    else t

/-- The handler bound to each out-of-band trigger. -/
def oobHandler (t : Sockets) : Oob → Sockets
  | Oob.connect k => socket_handler true (k.val : Int) t
  | Oob.closed k => socket_handler false (k.val : Int) t
  | Oob.ipd f => _packet_handler f t

/-- A `_parser.recv(...)`: the next reply is consumed and the triggers that
fire during the read run their handlers, in order. -/
def parser_recv (s : ESP32) : Option (Reply × ESP32) :=
  match s.parser.script with
  | [] => none
  | r :: rest =>
    some (r, ⟨⟨rest, s.parser.sent⟩, s.baud, r.oob.foldl oobHandler s.sock⟩)

/-- A `_parser.send(...)` on its own: the command is written, nothing is read. -/
def parser_send (c : Cmd) (s : ESP32) : Option (Bool × ESP32) :=
  match s.parser.script with
  | [] => none
  | r :: rest => some (r.ok, ⟨⟨rest, s.parser.sent ++ [c]⟩, s.baud, s.sock⟩)

/-- A command exchange `_parser.send(...) && _parser.recv(...)` (for `send`,
the four-step chain around `_parser.write`). -/
def parser_exchange (c : Cmd) (s : ESP32) : Option (Bool × ESP32) :=
  match s.parser.script with
  | [] => none
  | r :: rest =>
    some (r.ok, ⟨⟨rest, s.parser.sent ++ [c]⟩, s.baud, r.oob.foldl oobHandler s.sock⟩)

/-- The assignment `_server_act = b`. -/
def setServer (b : Bool) (s : ESP32) : ESP32 :=
  { s with sock := { s.sock with _server_act := b } }

def cre_server (port : Int) (s : ESP32) : Option (Bool × ESP32) :=
  match parser_exchange (Cmd.cipserver 1 port) s with
  | none => none
  | some (false, s1) => some (false, s1)
  | some (true, s1) => some (true, setServer true s1)

def del_server (s : ESP32) : Option (Bool × ESP32) :=
  match parser_exchange (Cmd.cipserver 0 0) s with
  | none => none
  | some (false, s1) => some (false, s1)
  | some (true, s1) => some (true, setServer false s1)

/-- The statements `*p_id = _accept_id[0]; _accept_id.erase(_accept_id.begin())`. -/
def popAccept (s : ESP32) (rest : List Int) : ESP32 :=
  { s with sock := { s.sock with _accept_id := rest } }

def acceptLoop : Nat → ESP32 → Option (Option Int × ESP32)
  | 0, _ => none
  | n + 1, s =>
    if s.sock._server_act then
      match s.sock._accept_id with
      | id :: rest => some (some id, popAccept s rest)
      | [] =>
        match parser_recv s with
        | none => none
        | some (_, s1) =>
          match s1.sock._accept_id with
          | id :: rest => some (some id, popAccept s1 rest)
          | [] => acceptLoop n s1
    else some (none, s)

/-- The function `accept`: `some id` for `true` with `*p_id = id`, `none` for `false`. -/
def accept (s : ESP32) : Option (Option Int × ESP32) :=
  acceptLoop (s.parser.script.length + 1) s

def resetLoop : Nat → ESP32 → Option (Bool × ESP32)
  | 0, s => some (false, s)
  | n + 1, s =>
    match parser_exchange Cmd.rst s with
    | none => none
    | some (false, s1) => resetLoop n s1
    | some (true, s1) =>
      match parser_recv { s1 with baud := 115200 } with
      | none => none
      | some (_, s2) =>
        match parser_exchange Cmd.uart s2 with
        | none => none
        | some (true, s3) => some (true, { s3 with baud := 230400 })
        | some (false, s3) => some (true, s3)

def reset (s : ESP32) : Option (Bool × ESP32) := resetLoop 2 s

/-- The record `recv_ap` fills from the scanned values, with
`ap->security = sec < 5 ? (nsapi_security_t)sec : NSAPI_SECURITY_UNKNOWN`. -/
def apOf (l : ApLine) : nsapi_wifi_ap_t :=
  ⟨l.ssid, l.bssid, if l.sec < 5 then l.sec else NSAPI_SECURITY_UNKNOWN, l.rssi, l.channel⟩

def recv_ap (s : ESP32) : Option (Bool × nsapi_wifi_ap_t × ESP32) :=
  match parser_recv s with
  | none => none
  | some (r, s1) => some (r.ok, apOf r.line, s1)

def scanLoop (limit : Nat) : Nat → List nsapi_wifi_ap_t → Nat → ESP32 →
    Option (Nat × List nsapi_wifi_ap_t × ESP32)
  | 0, _, _, _ => none
  | n + 1, res, cnt, s =>
    match recv_ap s with
    | none => none
    | some (false, _, s1) => some (cnt, res, s1)
    | some (true, ap, s1) =>
      let res1 := if cnt < limit then res.set cnt ap else res
      let cnt1 := (cnt + 1) % 2 ^ 32
      if limit ≠ 0 ∧ cnt1 ≥ limit then some (cnt1, res1, s1)
      else scanLoop limit n res1 cnt1 s1

/-- The function `scan`; `res` is the caller's array. -/
def scan (res : List nsapi_wifi_ap_t) (limit : Nat) (s : ESP32) :
    Option (Int × List nsapi_wifi_ap_t × ESP32) :=
  match parser_send Cmd.cwlap s with
  | none => none
  | some (false, s1) => some (NSAPI_ERROR_DEVICE_ERROR, res, s1)
  | some (true, s1) =>
    match scanLoop limit (s1.parser.script.length + 1) res 0 s1 with
    | none => none
    | some (cnt, res1, s2) =>
      match parser_recv s2 with
      | none => none
      | some (_, s3) => some (toInt32 cnt, res1, s3)

def «open» (type : String) (id : Int) (addr : String) (port : Int) (s : ESP32) :
    Option (Bool × ESP32) :=
  if id > 4 then some (false, s)
  else parser_exchange (Cmd.cipstart id type addr port) s

/-- The `n` bytes at `(char*)data + index`. -/
def bytesAt (data : List Nat) (index : Int) (n : Nat) : List Nat :=
  if 0 ≤ index then (data.drop index.toNat).take n else []

def sendLoop (id : Int) (data : List Nat) : Nat → Nat → Int → Nat → ESP32 → Option (Bool × ESP32)
  | 0, _, _, _, _ => none
  | n + 1, amount, index, error_cnt, s =>
    if error_cnt < 2 then
      if bitClear s.sock._id_bits id then some (false, s)
      else
        let send_size := if amount > 2048 then 2048 else amount
        match parser_exchange (Cmd.cipsend id send_size (bytesAt data index send_size)) s with
        | none => none
        | some (true, s1) =>
          if amount - send_size = 0 then some (true, s1)
          else sendLoop id data n (amount - send_size) (toInt32 (index + send_size)) error_cnt s1
        | some (false, s1) => sendLoop id data n amount index (error_cnt + 1) s1
    else some (false, s)

def send (id : Int) (data : List Nat) (amount : Nat) (s : ESP32) : Option (Bool × ESP32) :=
  if amount = 0 then some (true, s)
  else sendLoop id data (s.parser.script.length + 1) amount 0 0 s

/-- The `for` loop at the head of `recv`, from link `p` on.  `some none`: the
loop ended without a packet for `id`; `some (some (n, bytes, t))`: `recv`
returned `n` from inside the loop after copying `bytes` to `data`. -/
def recvScan (id : Int) (amount : Nat) : Nat → Link → Sockets →
    Option (Option (Int × List Nat × Sockets))
  | 0, _, _ => none
  | n + 1, p, t =>
    match deref t p with
    | none => none
    | some none => some none
    | some (some qa) =>
      match heapGet t.heap qa with
      | none => none
      | some q =>
        if q.id = id then
          if q.len ≤ amount then
            let t1 := if t._packets_end = Link.next qa then { t with _packets_end := p } else t
            let t2 := assign t1 p q.next
            some (some (toInt32 q.len, (q.data.drop q.index).take q.len,
              { t2 with heap := heapFree t2.heap qa }))
          else
            let q1 : packet := ⟨q.next, q.id, q.len - amount, (q.index + amount) % 2 ^ 32, q.data⟩
            some (some (toInt32 amount, (q.data.drop q.index).take amount,
              { t with heap := heapSet t.heap qa q1 }))
        else recvScan id amount n (Link.next qa) t

def recvLoop (id : Int) (amount : Nat) : Nat → Bool → ESP32 → Option (Int × List Nat × ESP32)
  | 0, _, _ => none
  | n + 1, retry, s =>
    match recvScan id amount (s.sock.heap.length + 1) Link.head s.sock with
    | none => none
    | some (some (ret, bytes, t)) => some (ret, bytes, { s with sock := t })
    | some none =>
      match parser_recv s with
      | none => none
      | some (r, s1) =>
        if r.ok then recvLoop id amount n retry s1
        else if retry then some (if bitClear s1.sock._id_bits id then -2 else -1, [], s1)
        else recvLoop id amount n true s1

/-- The function `recv`: the value returned, the bytes copied to `data`, the new state. -/
def recv (id : Int) (amount : Nat) (s : ESP32) : Option (Int × List Nat × ESP32) :=
  recvLoop id amount (s.parser.script.length + 1) false s

def closeLoop (id : Int) : Nat → ESP32 → Option (Bool × ESP32)
  | 0, s => some (false, s)
  | n + 1, s =>
    if bitClear s.sock._id_bits id then some (true, s)
    else
      match parser_exchange (Cmd.cipclose id) s with
      | none => none
      | some (true, s1) => some (true, s1)
      | some (false, s1) => closeLoop id n s1

def close (id : Int) (s : ESP32) : Option (Bool × ESP32) := closeLoop id 2 s

end ESP32

open ESP32

/-! ## Notions used to state the properties -/

/-- Whether the connection table has the bit of `id` set (the negation of the
test the driver makes). -/
def connected (t : Sockets) (id : Int) : Bool := !bitClear t._id_bits id

/-- A reply that scans no values and fires no trigger. -/
def Reply.plain (ok : Bool) : Reply := ⟨ok, [], ⟨0, [], 0, [], 0⟩⟩

/-- What an out-of-band event says about socket `id`: `some true` for its
connect notification, `some false` for its closed notification. -/
def Oob.note (id : Fin 5) : Oob → Option Bool
  | Oob.connect k => if k = id then some true else none
  | Oob.closed k => if k = id then some false else none
  | Oob.ipd _ => none

/-- The last notification for `id` in a sequence of events, if there is one. -/
def lastNote (id : Fin 5) (evs : List Oob) : Option Bool :=
  (evs.filterMap (Oob.note id)).getLast?

/-- All out-of-band events of a script, in the order they fire. -/
def scriptOob (rs : List Reply) : List Oob := rs.flatMap Reply.oob

/-- The array after the stores `res[cnt] = a₀`, `res[cnt + 1] = a₁`, ... -/
def writeFrom (res : List nsapi_wifi_ap_t) (cnt : Nat) : List nsapi_wifi_ap_t → List nsapi_wifi_ap_t
  | [] => res
  | a :: rest => writeFrom (res.set cnt a) (cnt + 1) rest

/-- A successful `+CWLAP` line for an access point named by `n`. -/
def Reply.ap (n : Nat) : Reply := ⟨true, [], ⟨3, [n], -50, [0, 0, 0, 0, 0, n], 1⟩⟩

/-- The bytes acknowledged in a run of `send`: the chunks of the successful
exchanges, in order.  An entry of the run is the chunk written and the outcome
of the exchange. -/
def acked : List (List Nat × Bool) → List Nat
  | [] => []
  | (c, true) :: tr => c ++ acked tr
  | (_, false) :: tr => acked tr

/-- The number of failed exchanges in a run of `send`. -/
def failures : List (List Nat × Bool) → Nat
  | [] => 0
  | (_, true) :: tr => failures tr
  | (_, false) :: tr => failures tr + 1

/-- The relation `Walk h x as y`: following `next` from the pointer `x` visits
exactly the live blocks `as`, in order, and the last link read holds `y`. -/
def Walk (h : List (Addr × packet)) : Option Addr → List Addr → Option Addr → Prop
  | x, [], y => x = y
  | x, a :: rest, y =>
    x = some a ∧ ∃ nx, (heapGet h a).map packet.next = some nx ∧ Walk h nx rest y

/-- The segments stored at the addresses `as`. -/
def segsOf (h : List (Addr × packet)) (as : List Addr) : List Segment :=
  as.filterMap (fun a => (heapGet h a).map packet.seg)

/-- The packet queue is well formed with chain `as`: the blocks `as` are
distinct and linked from `_packets` up to a null link, and `_packets_end` is
the link after the last of them. -/
structure Inv (t : Sockets) (as : List Addr) : Prop where
  chain : Walk t.heap t._packets as none
  nodup : as.Nodup
  tail : t._packets_end = lastLink as
  room : as.length ≤ t.heap.length

/-- The packet queue is a well-formed linked list. -/
def WellFormed (t : Sockets) : Prop := ∃ as, Inv t as

/-- List-level description of the queue scan of `recv(id, data, amount)`: the
first segment for `id`, if there is one, is delivered whole and removed when
its remaining length fits in `amount`, and otherwise gives `amount` bytes and
stays queued with its cursor advanced; every other segment stays as it is.
The result is the value returned with the bytes copied (`none` when no
segment for `id` is queued) and the queue afterwards. -/
def specRecv (id : Int) (amount : Nat) : List Segment → Option (Int × List Nat) × List Segment
  | [] => (none, [])
  | g :: rest =>
    if g.id = id then
      if g.len ≤ amount then (some (toInt32 g.len, g.remaining), rest)
      else (some (toInt32 amount, (g.data.drop g.index).take amount),
        ⟨g.id, g.len - amount, (g.index + amount) % 2 ^ 32, g.data⟩ :: rest)
    else ((specRecv id amount rest).1, g :: (specRecv id amount rest).2)

/-- An operation on the packet queue: an out-of-band event (a frame arrival
among them), or the queue scan of a call `recv(id, data, amount)`. -/
inductive QueueOp where
  | oob : Oob → QueueOp
  | scan : Int → Nat → QueueOp

/-- One queue operation on the driver; `none` when the scan does not end. -/
def stepOp (t : Sockets) : QueueOp → Option Sockets
  | QueueOp.oob e => some (oobHandler t e)
  | QueueOp.scan id amount =>
    match recvScan id amount (t.heap.length + 1) Link.head t with
    | none => none
    | some none => some t
    | some (some (_, _, t1)) => some t1

/-- The segment a frame contributes to the queue: none when the header does
not parse, the allocation fails or the read returns 0; otherwise a segment of
the announced length holding the payload area after the read. -/
def Frame.segment (f : Frame) : Option Segment :=
  match f.hdr with
  | none => none
  | some (id, amount) =>
    if f.mallocOk ∧ parser_read f.avail amount ≠ 0 then some ⟨id, amount, 0, f.payload amount⟩
    else none

/-- List-level description of one queue operation: the segment of a frame is
appended at the end, a scan acts as `specRecv`, nothing else touches the
queue. -/
def specStep (q : List Segment) : QueueOp → List Segment
  | QueueOp.oob (Oob.ipd f) =>
    match f.segment with
    | none => q
    | some g => q ++ [g]
  | QueueOp.oob (Oob.connect _) => q
  | QueueOp.oob (Oob.closed _) => q
  | QueueOp.scan id amount => (specRecv id amount q).2

/-- The segment `g` after `amount` of its bytes have been delivered. -/
def Segment.advance (g : Segment) (amount : Nat) : Segment :=
  ⟨g.id, g.len - amount, (g.index + amount) % 2 ^ 32, g.data⟩

/-- Successive calls `recv(id, data, a)`, one for each size `a` of the list:
the value returned and the bytes copied by each call, and the final state. -/
def recvMany (id : Int) : List Nat → ESP32 → Option (List (Int × List Nat) × ESP32)
  | [], s => some ([], s)
  | a :: rest, s =>
    match recv id a s with
    | none => none
    | some (ret, bytes, s1) =>
      match recvMany id rest s1 with
      | none => none
      | some (rs, s2) => some ((ret, bytes) :: rs, s2)

/-- What successive reads with the given buffer sizes deliver of a payload
`P`: each read gives the next `min a remaining` bytes. -/
def deliveries : List Nat → List Nat → List (Int × List Nat)
  | _, [] => []
  | P, a :: rest => (((min a P.length : Nat) : Int), P.take a) :: deliveries (P.drop a) rest

/-- The segment `g` with its cursor `n` bytes further. -/
def Segment.skip (g : Segment) (n : Nat) : Segment := ⟨g.id, g.len - n, g.index + n, g.data⟩

/-- An example state: a frame of two bytes for socket 0 and then a frame of
five bytes for socket 1 have arrived, and the next two polls will fail. -/
def twoFrames : ESP32 :=
  ⟨⟨[Reply.plain false, Reply.plain false], []⟩, 115200,
    [Oob.ipd ⟨some (0, 2), true, [1, 2], []⟩,
      Oob.ipd ⟨some (1, 5), true, [10, 11, 12, 13, 14], []⟩].foldl oobHandler (ctor []).sock⟩

/-- An example state: socket 2 is connected; the module will fail the first
close exchange while reporting socket 2 closed, and fail two more exchanges. -/
def closingTwo : ESP32 :=
  ⟨⟨[⟨false, [Oob.closed 2], ⟨0, [], 0, [], 0⟩⟩, Reply.plain false, Reply.plain false], []⟩,
    115200, oobHandler (ctor []).sock (Oob.connect 2)⟩

/-! ## Theorems -/

/-! ### Bits of the connection table -/

theorem shl1_eq (id : Int) (h0 : 0 ≤ id) (h1 : id < 31) : shl1 id = 2 ^ id.toNat := by
  unfold shl1
  rw [if_pos ⟨h0, h1⟩, Nat.one_shiftLeft]

theorem and_two_pow_eq_zero (b n : Nat) : (b &&& 2 ^ n = 0) ↔ b.testBit n = false := by
  constructor
  · intro h
    have := Nat.testBit_and b (2 ^ n) n
    rw [h, Nat.testBit_two_pow_self] at this
    simpa using this.symm
  · intro h
    apply Nat.eq_of_testBit_eq
    intro i
    rw [Nat.testBit_and, Nat.testBit_two_pow]
    by_cases hi : n = i
    · subst hi; simp [h]
    · simp [hi]

theorem bitClear_eq (bits : Nat) (id : Int) (h0 : 0 ≤ id) (h1 : id < 31) :
    bitClear bits id = !bits.testBit id.toNat := by
  unfold bitClear
  rw [shl1_eq id h0 h1]
  cases h : bits.testBit id.toNat
  · simpa using (and_two_pow_eq_zero bits id.toNat).2 h
  · have : ¬ (bits &&& 2 ^ id.toNat = 0) := by
      rw [and_two_pow_eq_zero]; simp [h]
    simpa using this

theorem connected_eq (t : Sockets) (k : Fin 5) :
    connected t (k.val : Int) = t._id_bits.testBit k.val := by
  unfold connected
  rw [bitClear_eq _ _ (by omega) (by omega)]
  simp

theorem testBit_set (b k j : Nat) (hj : j < 8) :
    ((b ||| 2 ^ k) % 2 ^ 8).testBit j = (b.testBit j || decide (k = j)) := by
  rw [Nat.testBit_mod_two_pow, Nat.testBit_or, Nat.testBit_two_pow]
  simp [hj]

theorem testBit_clear (b k j : Nat) (hk : k < 32) (hj : j < 8) :
    ((b &&& (2 ^ 32 - 1 - 2 ^ k)) % 2 ^ 8).testBit j = (b.testBit j && !decide (k = j)) := by
  have hlt : 2 ^ k < 2 ^ 32 := Nat.pow_lt_pow_right (by decide) hk
  have e : 2 ^ 32 - 1 - 2 ^ k = 2 ^ 32 - (2 ^ k + 1) := by omega
  rw [e, Nat.testBit_mod_two_pow, Nat.testBit_and, Nat.testBit_two_pow_sub_succ hlt,
    Nat.testBit_two_pow]
  have : j < 32 := by omega
  simp [hj, this]

theorem socket_handler_id_bits (c : Bool) (id : Int) (t : Sockets) :
    (socket_handler c id t)._id_bits
      = if c then (t._id_bits ||| shl1 id) % 2 ^ 8
        else (t._id_bits &&& (2 ^ 32 - 1 - shl1 id)) % 2 ^ 8 := by
  unfold socket_handler ID_BITS_WIDTH
  cases c <;> cases h : t._server_act <;> simp [h]

theorem socket_handler_connected (c : Bool) (k j : Fin 5) (t : Sockets) :
    connected (socket_handler c (k.val : Int) t) (j.val : Int)
      = if k = j then c else connected t (j.val : Int) := by
  have hk : shl1 (k.val : Int) = 2 ^ k.val := by
    rw [shl1_eq _ (by omega) (by omega)]; simp
  have hj : j.val < 8 := by omega
  rw [connected_eq, connected_eq, socket_handler_id_bits, hk]
  cases c
  · simp only [Bool.false_eq_true, if_false]
    rw [testBit_clear _ _ _ (by omega) hj]
    by_cases e : k = j
    · subst e; simp
    · have : ¬ k.val = j.val := fun h => e (Fin.ext h)
      simp [e, this]
  · simp only [if_true]
    rw [testBit_set _ _ _ hj]
    by_cases e : k = j
    · subst e; simp
    · have : ¬ k.val = j.val := fun h => e (Fin.ext h)
      simp [e, this]

theorem assign_frame (t : Sockets) (p : Link) (v : Option Addr) :
    (assign t p v)._id_bits = t._id_bits ∧ (assign t p v)._server_act = t._server_act ∧
    (assign t p v)._accept_id = t._accept_id ∧ (assign t p v)._packets_end = t._packets_end := by
  cases p with
  | head => simp [assign]
  | next a =>
    simp only [assign]
    split <;> simp

theorem packet_handler_frame (f : Frame) (t : Sockets) :
    (_packet_handler f t)._id_bits = t._id_bits ∧
    (_packet_handler f t)._server_act = t._server_act ∧
    (_packet_handler f t)._accept_id = t._accept_id := by
  unfold _packet_handler
  cases f.hdr with
  | none => simp
  | some ha =>
    obtain ⟨id, amount⟩ := ha
    simp only
    split
    · split
      · simp
      · simp [(assign_frame _ _ _)]
    · simp

theorem socket_handler_frame (c : Bool) (id : Int) (t : Sockets) :
    (socket_handler c id t).heap = t.heap ∧ (socket_handler c id t)._packets = t._packets ∧
    (socket_handler c id t)._packets_end = t._packets_end ∧
    (socket_handler c id t)._server_act = t._server_act := by
  unfold socket_handler
  cases c <;> cases h : t._server_act <;> simp [h]

theorem oobHandler_server_act (t : Sockets) (e : Oob) :
    (oobHandler t e)._server_act = t._server_act := by
  cases e with
  | connect k => exact (socket_handler_frame true (k.val : Int) t).2.2.2
  | closed k => exact (socket_handler_frame false (k.val : Int) t).2.2.2
  | ipd f => exact (packet_handler_frame f t).2.1

theorem foldl_server_act (evs : List Oob) (t : Sockets) :
    (evs.foldl oobHandler t)._server_act = t._server_act := by
  induction evs generalizing t with
  | nil => rfl
  | cons e r ih => rw [List.foldl_cons, ih, oobHandler_server_act]

theorem oobHandler_connected (t : Sockets) (e : Oob) (j : Fin 5) :
    connected (oobHandler t e) (j.val : Int) = (Oob.note j e).getD (connected t (j.val : Int)) := by
  cases e with
  | connect k =>
    simp only [oobHandler, Oob.note, socket_handler_connected]
    by_cases h : k = j <;> simp [h]
  | closed k =>
    simp only [oobHandler, Oob.note, socket_handler_connected]
    by_cases h : k = j <;> simp [h]
  | ipd f =>
    simp only [oobHandler, Oob.note, Option.getD_none, connected, (packet_handler_frame f t).1]

theorem foldl_connected (evs : List Oob) (t : Sockets) (j : Fin 5) :
    connected (evs.foldl oobHandler t) (j.val : Int)
      = (lastNote j evs).getD (connected t (j.val : Int)) := by
  induction evs generalizing t with
  | nil => simp [lastNote]
  | cons e r ih =>
    rw [List.foldl_cons, ih, oobHandler_connected]
    unfold lastNote
    rw [List.filterMap_cons]
    cases h : Oob.note j e with
    | none => simp
    | some b =>
      simp only [Option.getD_some]
      cases h2 : (List.filterMap (Oob.note j) r).getLast? with
      | none =>
        have : List.filterMap (Oob.note j) r = [] := List.getLast?_eq_none_iff.mp h2
        simp [this]
      | some c =>
        rw [List.getLast?_cons, h2]
        simp

theorem oobHandler_id_bits_lt (t : Sockets) (e : Oob) (h : t._id_bits < 256) :
    (oobHandler t e)._id_bits < 256 := by
  cases e with
  | connect k =>
    simp only [oobHandler, socket_handler_id_bits, if_true]
    exact Nat.mod_lt _ (by decide)
  | closed k =>
    simp only [oobHandler, socket_handler_id_bits, Bool.false_eq_true, if_false]
    exact Nat.mod_lt _ (by decide)
  | ipd f => simpa [oobHandler, (packet_handler_frame f t).1] using h

theorem foldl_id_bits_lt (evs : List Oob) (t : Sockets) (h : t._id_bits < 256) :
    (evs.foldl oobHandler t)._id_bits < 256 := by
  induction evs generalizing t with
  | nil => simpa using h
  | cons e r ih => exact ih _ (oobHandler_id_bits_lt t e h)

theorem closed_of_clear (t : Sockets) (k : Fin 5) (hlt : t._id_bits < 256)
    (hc : connected t (k.val : Int) = false) :
    (socket_handler false (k.val : Int) t)._id_bits = t._id_bits := by
  have hk : shl1 (k.val : Int) = 2 ^ k.val := by
    rw [shl1_eq _ (by omega) (by omega)]; simp
  rw [connected_eq] at hc
  have key : (t._id_bits &&& (2 ^ 32 - 1 - 2 ^ k.val)) % 2 ^ 8 = t._id_bits := by
    apply Nat.eq_of_testBit_eq
    intro i
    by_cases hi : i < 8
    · rw [testBit_clear _ _ _ (by omega) hi]
      by_cases e : k.val = i
      · subst e; simp [hc]
      · simp [e]
    · have h1 : t._id_bits.testBit i = false :=
        Nat.testBit_lt_two_pow (lt_of_lt_of_le hlt
          (Nat.pow_le_pow_right (by decide : 2 > 0) (by omega : 8 ≤ i)))
      rw [Nat.testBit_mod_two_pow, h1]
      simp [hi]
  rw [socket_handler_id_bits, hk]
  simpa using key

/-- C4: starting from an all-clear connection table, after any sequence of
out-of-band events the bit of socket `id` is set exactly when the sequence
holds a notification for `id` and the last one is a connect; a notification
for `k` leaves the bit of every other socket as it was; and a closed
notification for a socket whose bit is clear leaves the table unchanged. -/
theorem connection_table_tracks_last_notification (t0 : Sockets) (h0 : t0._id_bits = 0)
    (evs : List Oob) (id : Fin 5) :
    (connected (evs.foldl oobHandler t0) (id.val : Int) = true ↔ lastNote id evs = some true) ∧
    (∀ (c : Bool) (k j : Fin 5), j ≠ k →
      connected (socket_handler c (k.val : Int) (evs.foldl oobHandler t0)) (j.val : Int)
        = connected (evs.foldl oobHandler t0) (j.val : Int)) ∧
    (connected (evs.foldl oobHandler t0) (id.val : Int) = false →
      (socket_handler false (id.val : Int) (evs.foldl oobHandler t0))._id_bits
        = (evs.foldl oobHandler t0)._id_bits) := by
  refine ⟨?_, ?_, ?_⟩
  · rw [foldl_connected]
    have hc : connected t0 (id.val : Int) = false := by
      rw [connected_eq, h0]; simp
    rw [hc]
    cases lastNote id evs with
    | none => simp
    | some b => cases b <;> simp
  · intro c k j hjk
    rw [socket_handler_connected, if_neg (fun h => hjk h.symm)]
  · intro hc
    exact closed_of_clear _ id (foldl_id_bits_lt evs t0 (by rw [h0]; decide)) hc

theorem connection_table_tracks_last_notification_witness :
    (ctor []).sock._id_bits = 0 ∧
    ((connected ([Oob.connect 1, Oob.closed 1, Oob.connect 3].foldl oobHandler (ctor []).sock)
        ((3 : Fin 5).val : Int) = true
      ↔ lastNote 3 [Oob.connect 1, Oob.closed 1, Oob.connect 3] = some true) ∧
    (∀ (c : Bool) (k j : Fin 5), j ≠ k →
      connected (socket_handler c (k.val : Int)
        ([Oob.connect 1, Oob.closed 1, Oob.connect 3].foldl oobHandler (ctor []).sock)) (j.val : Int)
        = connected ([Oob.connect 1, Oob.closed 1, Oob.connect 3].foldl oobHandler (ctor []).sock)
            (j.val : Int)) ∧
    (connected ([Oob.connect 1, Oob.closed 1, Oob.connect 3].foldl oobHandler (ctor []).sock)
        ((3 : Fin 5).val : Int) = false →
      (socket_handler false ((3 : Fin 5).val : Int)
        ([Oob.connect 1, Oob.closed 1, Oob.connect 3].foldl oobHandler (ctor []).sock))._id_bits
        = ([Oob.connect 1, Oob.closed 1, Oob.connect 3].foldl oobHandler (ctor []).sock)._id_bits)) :=
  ⟨rfl, connection_table_tracks_last_notification (ctor []).sock rfl
    [Oob.connect 1, Oob.closed 1, Oob.connect 3] 3⟩

/-! ### Accept queue -/

/-- C3 (failing input): with the server active, two connect notifications for
socket 2 followed by its closed notification leave one occurrence of 2 in the
accept queue, and the next `accept` returns it. -/
theorem closed_notification_keeps_adjacent_duplicate :
    (cre_server 80 (ctor [Reply.plain true,
        ⟨false, [Oob.connect 2, Oob.connect 2, Oob.closed 2], ⟨0, [], 0, [], 0⟩⟩])).bind
      (fun r => (accept r.2).map (fun a => (r.1, a.1))) = some (true, some 2) := by
  have h : eraseLoop 2 0 [2, 2] = [2] := by simp [eraseLoop]
  simp [cre_server, parser_exchange, parser_recv, ctor, Reply.plain, oobHandler, socket_handler,
    h, accept, acceptLoop, setServer, popAccept]

/-! ### Open and close -/

/-- C8 (failing input): `open` with the negative id `-1` passes the range
check, writes the connect command and returns the module's answer. -/
theorem open_negative_id_issues_command :
    «open» "TCP" (-1) "10.0.0.1" 80 (ctor [Reply.plain true])
      = some (true, { ctor [] with parser := ⟨[], [Cmd.cipstart (-1) "TCP" "10.0.0.1" 80]⟩ }) := by
  decide

/-- C7 (counterexample): socket 0 is connected, the first `close(0)` is
acknowledged but no closed notification has been handled, and the module then
fails two exchanges: the second `close(0)` writes the command again and
returns false. -/
theorem close_twice_can_fail :
    ((«open» "TCP" 0 "10.0.0.1" 80 (ctor [⟨true, [Oob.connect 0], ⟨0, [], 0, [], 0⟩⟩,
        Reply.plain true, Reply.plain false, Reply.plain false])).bind
      (fun r0 => (close 0 r0.2).bind
        (fun r1 => (close 0 r1.2).map
          (fun r2 => (r0.1, r1.1, r2.1, r2.2.parser.sent.drop 1))))) =
      some (true, true, false, [Cmd.cipclose 0, Cmd.cipclose 0, Cmd.cipclose 0]) := by
  decide

/-- C7 (amended): `close(id)` with the bit of `id` clear returns true, writes
no command and leaves the whole state as it is; with the bit set it writes
the close command and returns true when the exchange is acknowledged or when
the bit is clear after it (the closed notification fired), and otherwise
writes the command a second time and returns the outcome of that exchange;
its only changes to the socket state are those of the handlers fired during
its exchanges.  So the second of two calls in a row returns true without a
command whenever the bit is clear after the first, and it returns false only
when the bit is still set and both of its exchanges fail. -/
theorem close_outcome (id : Int) (s : ESP32) :
    (connected s.sock id = false → close id s = some (true, s)) ∧
    (∀ r1 rest, s.parser.script = r1 :: rest → connected s.sock id = true →
      (r1.ok = true ∨ connected (r1.oob.foldl oobHandler s.sock) id = false) →
      close id s = some (true, ⟨⟨rest, s.parser.sent ++ [Cmd.cipclose id]⟩, s.baud,
        r1.oob.foldl oobHandler s.sock⟩)) ∧
    (∀ r1 r2 rest, s.parser.script = r1 :: r2 :: rest → connected s.sock id = true →
      r1.ok = false → connected (r1.oob.foldl oobHandler s.sock) id = true →
      close id s = some (r2.ok,
        ⟨⟨rest, s.parser.sent ++ [Cmd.cipclose id, Cmd.cipclose id]⟩, s.baud,
          (r1.oob ++ r2.oob).foldl oobHandler s.sock⟩)) ∧
    (∀ ret s1, close id s = some (ret, s1) → connected s1.sock id = false →
      close id s1 = some (true, s1)) ∧
    (∀ ret s1 s2, close id s = some (ret, s1) → close id s1 = some (false, s2) →
      connected s1.sock id = true ∧
      ∃ r1 r2 rest, s1.parser.script = r1 :: r2 :: rest ∧ r1.ok = false ∧ r2.ok = false) := by
  have hclear : ∀ s0 : ESP32, connected s0.sock id = false → close id s0 = some (true, s0) := by
    intro s0 h
    have hb : bitClear s0.sock._id_bits id = true := by simpa [connected] using h
    simp [close, closeLoop, hb]
  have hset : ∀ t : Sockets, connected t id = true → bitClear t._id_bits id = false := by
    intro t h
    simpa [connected] using h
  refine ⟨hclear s, ?_, ?_, ?_, ?_⟩
  · intro r1 rest hs hc hor
    obtain ⟨⟨script, sent⟩, baud, t⟩ := s
    simp only at hs hc hor ⊢
    subst hs
    have hb := hset t hc
    cases hok : r1.ok
    · rcases hor with h | h
      · rw [hok] at h; simp at h
      · have hb1 : bitClear (List.foldl oobHandler t r1.oob)._id_bits id = true := by
          simpa [connected] using h
        simp [close, closeLoop, hb, parser_exchange, hok, hb1]
    · simp [close, closeLoop, hb, parser_exchange, hok]
  · intro r1 r2 rest hs hc hok hc1
    obtain ⟨⟨script, sent⟩, baud, t⟩ := s
    simp only at hs hc hc1 ⊢
    subst hs
    have hb := hset t hc
    have hb1 := hset _ hc1
    cases hok2 : r2.ok <;>
      simp [close, closeLoop, hb, parser_exchange, hok, hb1, hok2, List.foldl_append]
  · intro ret s1 _ hc
    exact hclear s1 hc
  · intro ret s1 s2 _ h2
    cases hc : connected s1.sock id
    · rw [hclear s1 hc] at h2
      simp at h2
    · refine ⟨rfl, ?_⟩
      obtain ⟨⟨script, sent⟩, baud, t⟩ := s1
      simp only at hc
      have hb := hset t hc
      cases script with
      | nil => simp [close, closeLoop, hb, parser_exchange] at h2
      | cons r1 rest =>
        cases hok : r1.ok
        · cases hc1 : bitClear (List.foldl oobHandler t r1.oob)._id_bits id
          · cases rest with
            | nil => simp [close, closeLoop, hb, parser_exchange, hok, hc1] at h2
            | cons r2 rest2 =>
              cases hok2 : r2.ok
              · exact ⟨r1, r2, rest2, rfl, hok, hok2⟩
              · simp [close, closeLoop, hb, parser_exchange, hok, hc1, hok2] at h2
          · simp [close, closeLoop, hb, parser_exchange, hok, hc1] at h2
        · simp [close, closeLoop, hb, parser_exchange, hok] at h2

theorem close_outcome_witness :
    close 2 closingTwo
        = some (true, ⟨⟨[Reply.plain false, Reply.plain false], [Cmd.cipclose 2]⟩, 115200,
            [Oob.closed 2].foldl oobHandler closingTwo.sock⟩) ∧
    close 2 ⟨⟨[Reply.plain false, Reply.plain false], [Cmd.cipclose 2]⟩, 115200,
          [Oob.closed 2].foldl oobHandler closingTwo.sock⟩
        = some (true, ⟨⟨[Reply.plain false, Reply.plain false], [Cmd.cipclose 2]⟩, 115200,
            [Oob.closed 2].foldl oobHandler closingTwo.sock⟩) :=
  ⟨(close_outcome 2 closingTwo).2.1 ⟨false, [Oob.closed 2], ⟨0, [], 0, [], 0⟩⟩
      [Reply.plain false, Reply.plain false] rfl (by decide) (Or.inr (by decide)),
    (close_outcome 2 closingTwo).2.2.2.1 true _
      ((close_outcome 2 closingTwo).2.1 ⟨false, [Oob.closed 2], ⟨0, [], 0, [], 0⟩⟩
        [Reply.plain false, Reply.plain false] rfl (by decide) (Or.inr (by decide)))
      (by decide)⟩


/-! ### Reset -/

/-- C9 (counterexample): with the server active and socket 1 connected, a
successful `reset()` leaves bit 1 set and the server state active. -/
theorem reset_keeps_table_and_server :
    ((cre_server 80 (ctor [⟨true, [Oob.connect 1], ⟨0, [], 0, [], 0⟩⟩, Reply.plain true,
        Reply.plain true, Reply.plain true])).bind
      (fun r => (reset r.2).map
        (fun r2 => (r2.1, r2.2.sock._id_bits, r2.2.sock._server_act)))) = some (true, 2, true) := by
  decide

theorem script_four (l : List Reply) (h : 4 ≤ l.length) :
    ∃ r1 r2 r3 r4 rest, l = r1 :: r2 :: r3 :: r4 :: rest := by
  match l, h with
  | r1 :: r2 :: r3 :: r4 :: rest, _ => exact ⟨r1, r2, r3, r4, rest, rfl⟩

/-- C9 (amended): `reset()` returns whenever the module answers, and it writes
neither the connection table nor the server state: the socket state after the
call is the state before it with only the handlers of the out-of-band events
that fired during its (at most four) parser calls applied; the server state is
always the one before the call, and with no such event nothing changes. -/
theorem reset_leaves_socket_state (s : ESP32) (h : 4 ≤ s.parser.script.length) :
    ∃ r s' k, reset s = some (r, s') ∧ k ≤ 4 ∧
      s'.parser.script = s.parser.script.drop k ∧
      s'.sock = (scriptOob (s.parser.script.take k)).foldl oobHandler s.sock ∧
      s'.sock._server_act = s.sock._server_act ∧
      (scriptOob (s.parser.script.take k) = [] → s'.sock = s.sock) := by
  obtain ⟨⟨script, sent⟩, baud, t⟩ := s
  obtain ⟨r1, r2, r3, r4, rest, rfl⟩ := script_four script h
  have key : ∀ (r : Bool) (s' : ESP32) (k : Nat),
      reset ⟨⟨r1 :: r2 :: r3 :: r4 :: rest, sent⟩, baud, t⟩ = some (r, s') → k ≤ 4 →
      s'.parser.script = (r1 :: r2 :: r3 :: r4 :: rest).drop k →
      s'.sock = (scriptOob ((r1 :: r2 :: r3 :: r4 :: rest).take k)).foldl oobHandler t →
      ∃ r s' k, reset ⟨⟨r1 :: r2 :: r3 :: r4 :: rest, sent⟩, baud, t⟩ = some (r, s') ∧ k ≤ 4 ∧
        s'.parser.script = (r1 :: r2 :: r3 :: r4 :: rest).drop k ∧
        s'.sock = (scriptOob ((r1 :: r2 :: r3 :: r4 :: rest).take k)).foldl oobHandler t ∧
        s'.sock._server_act = t._server_act ∧
        (scriptOob ((r1 :: r2 :: r3 :: r4 :: rest).take k) = [] → s'.sock = t) := by
    intro r s' k hr hk hs ht
    refine ⟨r, s', k, hr, hk, hs, ht, ?_, ?_⟩
    · rw [ht, foldl_server_act]
    · intro he
      rw [ht, he]
      rfl
  cases h1 : r1.ok
  · cases h2 : r2.ok
    · exact key false _ 2 (by simp [reset, resetLoop, parser_exchange, h1, h2]; rfl)
        (by decide) (by rfl) (by simp [scriptOob, List.foldl_append])
    · cases h4 : r4.ok
      · exact key true _ 4
          (by simp [reset, resetLoop, parser_exchange, parser_recv, h1, h2, h4]; rfl)
          (by decide) (by rfl) (by simp [scriptOob, List.foldl_append])
      · exact key true _ 4
          (by simp [reset, resetLoop, parser_exchange, parser_recv, h1, h2, h4]; rfl)
          (by decide) (by rfl) (by simp [scriptOob, List.foldl_append])
  · cases h3 : r3.ok
    · exact key true _ 3
        (by simp [reset, resetLoop, parser_exchange, parser_recv, h1, h3]; rfl)
        (by decide) (by rfl) (by simp [scriptOob, List.foldl_append])
    · exact key true _ 3
        (by simp [reset, resetLoop, parser_exchange, parser_recv, h1, h3]; rfl)
        (by decide) (by rfl) (by simp [scriptOob, List.foldl_append])

theorem reset_leaves_socket_state_witness :
    4 ≤ (ESP32.mk ⟨[Reply.plain false, Reply.plain true, Reply.plain true, Reply.plain true], []⟩
        115200 ⟨[], none, Link.head, 5, true, [0, 2]⟩).parser.script.length ∧
    ∃ r s' k,
      reset (ESP32.mk ⟨[Reply.plain false, Reply.plain true, Reply.plain true, Reply.plain true],
        []⟩ 115200 ⟨[], none, Link.head, 5, true, [0, 2]⟩) = some (r, s') ∧ k ≤ 4 ∧
      s'.parser.script = (ESP32.mk ⟨[Reply.plain false, Reply.plain true, Reply.plain true,
        Reply.plain true], []⟩ 115200 ⟨[], none, Link.head, 5, true, [0, 2]⟩).parser.script.drop k ∧
      s'.sock = (scriptOob ((ESP32.mk ⟨[Reply.plain false, Reply.plain true, Reply.plain true,
        Reply.plain true], []⟩ 115200
          ⟨[], none, Link.head, 5, true, [0, 2]⟩).parser.script.take k)).foldl oobHandler
        (ESP32.mk ⟨[Reply.plain false, Reply.plain true, Reply.plain true, Reply.plain true], []⟩
          115200 ⟨[], none, Link.head, 5, true, [0, 2]⟩).sock ∧
      s'.sock._server_act = (ESP32.mk ⟨[Reply.plain false, Reply.plain true, Reply.plain true,
        Reply.plain true], []⟩ 115200 ⟨[], none, Link.head, 5, true, [0, 2]⟩).sock._server_act ∧
      (scriptOob ((ESP32.mk ⟨[Reply.plain false, Reply.plain true, Reply.plain true,
        Reply.plain true], []⟩ 115200
          ⟨[], none, Link.head, 5, true, [0, 2]⟩).parser.script.take k) = [] →
        s'.sock = (ESP32.mk ⟨[Reply.plain false, Reply.plain true, Reply.plain true,
          Reply.plain true], []⟩ 115200 ⟨[], none, Link.head, 5, true, [0, 2]⟩).sock) :=
  ⟨by decide, reset_leaves_socket_state _ (by decide)⟩

/-! ### Scan -/

theorem toInt32_of_lt (x : Int) (h0 : 0 ≤ x) (h1 : x < 2 ^ 31) : toInt32 x = x := by
  unfold toInt32
  omega

theorem writeFrom_eq (aps res : List nsapi_wifi_ap_t) (cnt : Nat)
    (h : cnt + aps.length ≤ res.length) :
    writeFrom res cnt aps = res.take cnt ++ aps ++ res.drop (cnt + aps.length) := by
  induction aps generalizing res cnt with
  | nil => simp [writeFrom]
  | cons a rest ih =>
    simp only [List.length_cons] at h
    have hlt : cnt < res.length := by omega
    rw [writeFrom, ih _ _ (by rw [List.length_set]; omega)]
    rw [List.set_eq_take_append_cons_drop, if_pos hlt]
    have e1 : List.take (cnt + 1) (List.take cnt res ++ a :: List.drop (cnt + 1) res)
        = List.take cnt res ++ [a] := by
      rw [List.take_append_eq_append_take]
      simp [List.length_take, Nat.min_eq_left (Nat.le_of_lt hlt)]
    have e2 : List.drop (cnt + 1 + rest.length)
        (List.take cnt res ++ a :: List.drop (cnt + 1) res)
        = List.drop (cnt + (rest.length + 1)) res := by
      rw [List.drop_append_eq_append_drop]
      simp only [List.length_take, Nat.min_eq_left (Nat.le_of_lt hlt)]
      have : cnt + 1 + rest.length - cnt = rest.length + 1 := by omega
      rw [this, List.drop_succ_cons, List.drop_drop]
      have : List.drop (cnt + 1 + rest.length) (List.take cnt res) = [] := by
        apply List.drop_eq_nil_of_le
        rw [List.length_take]; omega
      rw [this]
      simp only [List.nil_append]
      congr 1
      omega
    rw [e1, e2]
    simp [List.length_cons]

theorem scanLoop_stops (limit : Nat) (hl : limit < 2 ^ 32) :
    ∀ (rs : List Reply) (cnt fuel : Nat) (res : List nsapi_wifi_ap_t) (s : ESP32)
      (rest : List Reply),
      rs ≠ [] → cnt + rs.length = limit → (∀ r ∈ rs, r.ok = true) →
      s.parser.script = rs ++ rest → rs.length ≤ fuel →
      ∃ s', scanLoop limit fuel res cnt s
          = some (limit, writeFrom res cnt (rs.map (fun r => apOf r.line)), s') ∧
        s'.parser.script = rest := by
  intro rs
  induction rs with
  | nil => intro _ _ _ _ _ h; exact absurd rfl h
  | cons r rs ih =>
    intro cnt fuel res s rest _ hcnt hok hs hfuel
    obtain ⟨⟨script, sent⟩, baud, t⟩ := s
    simp only at hs
    subst hs
    cases fuel with
    | zero => simp at hfuel
    | succ n =>
      have hr : r.ok = true := hok r (List.mem_cons_self _ _)
      simp only [List.length_cons] at hcnt hfuel
      have hlt : cnt < limit := by omega
      have hmod : (cnt + 1) % 2 ^ 32 = cnt + 1 := Nat.mod_eq_of_lt (by omega)
      simp only [scanLoop, recv_ap, parser_recv, List.cons_append, hr, hmod, if_pos hlt,
        List.map_cons, writeFrom]
      by_cases hrs : rs = []
      · subst hrs
        simp only [List.length_nil, Nat.add_zero] at hcnt
        have : limit ≠ 0 ∧ cnt + 1 ≥ limit := ⟨by omega, by omega⟩
        rw [if_pos this]
        refine ⟨⟨⟨rest, sent⟩, baud, r.oob.foldl oobHandler t⟩, ?_, rfl⟩
        simp [writeFrom, hcnt]
      · have hlt2 : ¬ (limit ≠ 0 ∧ cnt + 1 ≥ limit) := by
          have : 0 < rs.length := List.length_pos.mpr hrs
          intro h
          omega
        rw [if_neg hlt2]
        exact ih (cnt + 1) n _ _ rest hrs (by omega)
          (fun x hx => hok x (List.mem_cons_of_mem _ hx)) rfl (by omega)

/-- C2 (counterexample): `scan(results, 3)` over five access-point lines
returns 3, not 5, with slots 0, 1, 2 written. -/
theorem scan_three_of_five_returns_three :
    (scan (List.replicate 3 (apOf ⟨0, [], 0, [], 0⟩)) 3
        (ctor [Reply.plain true, Reply.ap 1, Reply.ap 2, Reply.ap 3, Reply.ap 4, Reply.ap 5,
          Reply.plain false, Reply.plain true])).map (fun r => (r.1, r.2.1))
      = some (3, [apOf (Reply.ap 1).line, apOf (Reply.ap 2).line, apOf (Reply.ap 3).line]) ∧
    (scan (List.replicate 3 (apOf ⟨0, [], 0, [], 0⟩)) 3
        (ctor [Reply.plain true, Reply.ap 1, Reply.ap 2, Reply.ap 3, Reply.ap 4, Reply.ap 5,
          Reply.plain false, Reply.plain true])).map (fun r => r.1) ≠ some 5 := by
  decide

/-- C2 (amended): for a limit `0 < limit` and a response with `n > limit`
access-point lines, `scan(results, limit)` returns `limit` (the number of
records written), stores the first `limit` records in `results[0..limit)`,
leaves the rest of the array alone and stops parsing: the records after the
first `limit` are not counted. -/
theorem scan_stops_at_limit (res : List nsapi_wifi_ap_t) (limit : Nat) (s : ESP32)
    (c : Reply) (rs rest : List Reply)
    (hlimit : 0 < limit) (h31 : limit < 2 ^ 31) (hres : limit ≤ res.length)
    (hscript : s.parser.script = c :: rs ++ rest) (hc : c.ok = true)
    (hrs : ∀ r ∈ rs, r.ok = true) (hn : limit < rs.length) :
    ∃ res' s', scan res limit s = some ((limit : Int), res', s') ∧
      res'.take limit = (rs.take limit).map (fun r => apOf r.line) ∧
      res'.drop limit = res.drop limit ∧
      s'.parser.script = rs.drop (limit + 1) ++ rest := by
  obtain ⟨⟨script, sent⟩, baud, t⟩ := s
  simp only at hscript
  subst hscript
  have hsplit : rs = rs.take limit ++ rs.drop limit := (List.take_append_drop limit rs).symm
  have hlen : (rs.take limit).length = limit := by
    rw [List.length_take]; omega
  have hne : rs.take limit ≠ [] := by
    intro h; rw [h] at hlen; simp at hlen; omega
  obtain ⟨s2, h2, hs2⟩ := scanLoop_stops limit (by omega) (rs.take limit) 0
    ((rs ++ rest).length + 1) res ⟨⟨rs ++ rest, sent ++ [Cmd.cwlap]⟩, baud, t⟩
    (rs.drop limit ++ rest) hne (by omega)
    (fun r hr => hrs r (List.mem_of_mem_take hr))
    (by simp only; rw [← List.append_assoc, List.take_append_drop])
    (by rw [hlen, List.length_append]; omega)
  have hdrop : rs.drop limit ≠ [] := by
    intro h
    have := congrArg List.length h
    rw [List.length_drop] at this
    simp at this
    omega
  obtain ⟨r1, rs1, hr1⟩ := List.exists_cons_of_ne_nil hdrop
  obtain ⟨⟨script2, sent2⟩, baud2, t2⟩ := s2
  simp only at hs2
  subst hs2
  have hd1 : rs.drop (limit + 1) = rs1 := by
    have : rs.drop (limit + 1) = (rs.drop limit).drop 1 := by
      rw [List.drop_drop]
    rw [this, hr1]
    rfl
  refine ⟨writeFrom res 0 ((rs.take limit).map (fun r => apOf r.line)),
    ⟨⟨rs1 ++ rest, sent2⟩, baud2, r1.oob.foldl oobHandler t2⟩, ?_, ?_, ?_, ?_⟩
  · simp only [scan, parser_send, List.cons_append, hc, h2, hr1, parser_recv]
    rw [toInt32_of_lt _ (by omega) (by exact_mod_cast h31)]
  · have hal : ((rs.take limit).map (fun r => apOf r.line)).length = limit := by
      rw [List.length_map, hlen]
    rw [writeFrom_eq _ _ _ (by rw [hal]; omega), List.take_zero, List.nil_append]
    exact List.take_left' hal
  · have hal : ((rs.take limit).map (fun r => apOf r.line)).length = limit := by
      rw [List.length_map, hlen]
    rw [writeFrom_eq _ _ _ (by rw [hal]; omega), List.take_zero, List.nil_append, hal,
      Nat.zero_add]
    exact List.drop_left' hal
  · simp only
    rw [hd1]

theorem scan_stops_at_limit_witness :
    (0 < 2 ∧ 2 < 2 ^ 31 ∧ 2 ≤ (List.replicate 4 (apOf ⟨0, [], 0, [], 0⟩)).length) ∧
    ∃ res' s', scan (List.replicate 4 (apOf ⟨0, [], 0, [], 0⟩)) 2
        (ctor ([Reply.plain true, Reply.ap 1, Reply.ap 2, Reply.ap 3] ++ [Reply.plain false]))
          = some (((2 : Nat) : Int), res', s') ∧
      res'.take 2 = ([Reply.ap 1, Reply.ap 2, Reply.ap 3].take 2).map (fun r => apOf r.line) ∧
      res'.drop 2 = (List.replicate 4 (apOf ⟨0, [], 0, [], 0⟩)).drop 2 ∧
      s'.parser.script = [Reply.ap 1, Reply.ap 2, Reply.ap 3].drop (2 + 1) ++ [Reply.plain false] :=
  ⟨by decide, scan_stops_at_limit (List.replicate 4 (apOf ⟨0, [], 0, [], 0⟩)) 2
    (ctor ([Reply.plain true, Reply.ap 1, Reply.ap 2, Reply.ap 3] ++ [Reply.plain false]))
    (Reply.plain true) [Reply.ap 1, Reply.ap 2, Reply.ap 3] [Reply.plain false]
    (by decide) (by decide) (by decide) rfl rfl (by decide) (by decide)⟩

/-! ### Send -/

theorem lastNote_ne_false (k : Fin 5) (evs : List Oob) (h : Oob.closed k ∉ evs) :
    lastNote k evs ≠ some false := by
  intro hl
  unfold lastNote at hl
  have hm : false ∈ evs.filterMap (Oob.note k) := List.mem_of_getLast?_eq_some hl
  rw [List.mem_filterMap] at hm
  obtain ⟨e, he, hn⟩ := hm
  cases e with
  | connect j =>
    simp only [Oob.note] at hn
    split at hn <;> simp at hn
  | closed j =>
    simp only [Oob.note] at hn
    split at hn
    · rename_i hj
      subst hj
      exact h he
    · simp at hn
  | ipd f => simp [Oob.note] at hn

theorem foldl_stays_connected (k : Fin 5) (evs : List Oob) (t : Sockets)
    (hc : connected t (k.val : Int) = true) (h : Oob.closed k ∉ evs) :
    connected (evs.foldl oobHandler t) (k.val : Int) = true := by
  rw [foldl_connected, hc]
  have := lastNote_ne_false k evs h
  cases hl : lastNote k evs with
  | none => rfl
  | some b =>
    cases b
    · exact absurd hl this
    · rfl

theorem bytesAt_eq (data : List Nat) (off n : Nat) :
    bytesAt data (off : Int) n = (data.drop off).take n := by
  unfold bytesAt
  simp

theorem send_size_chunk (data : List Nat) (off amount : Nat) (h : off + amount = data.length) :
    (data.drop off).take (if amount > 2048 then 2048 else amount) = (data.drop off).take 2048 ∧
    ((data.drop off).take 2048).length = (if amount > 2048 then 2048 else amount) := by
  have hl : (data.drop off).length = amount := by
    rw [List.length_drop]; omega
  by_cases hgt : amount > 2048
  · rw [if_pos hgt]
    refine ⟨rfl, ?_⟩
    rw [List.length_take, hl]; omega
  · rw [if_neg hgt]
    have h1 : (data.drop off).take amount = data.drop off :=
      List.take_of_length_le (by omega)
    have h2 : (data.drop off).take 2048 = data.drop off :=
      List.take_of_length_le (by omega)
    rw [h1, h2]
    exact ⟨rfl, hl⟩

theorem sendLoop_step (k : Fin 5) (data : List Nat) (n amount off e : Nat) (r : Reply)
    (rest : List Reply) (sent : List Cmd) (baud : Nat) (t : Sockets)
    (hoff : off + amount = data.length) (he : e < 2)
    (hc : connected t (k.val : Int) = true) :
    sendLoop (k.val : Int) data (n + 1) amount (off : Int) e ⟨⟨r :: rest, sent⟩, baud, t⟩
      = if r.ok then
          if amount - ((data.drop off).take 2048).length = 0 then
            some (true, ⟨⟨rest, sent ++ [Cmd.cipsend (k.val : Int)
              ((data.drop off).take 2048).length ((data.drop off).take 2048)]⟩, baud,
              r.oob.foldl oobHandler t⟩)
          else
            sendLoop (k.val : Int) data n (amount - ((data.drop off).take 2048).length)
              (toInt32 ((off : Int) + (((data.drop off).take 2048).length : Nat))) e
              ⟨⟨rest, sent ++ [Cmd.cipsend (k.val : Int)
                ((data.drop off).take 2048).length ((data.drop off).take 2048)]⟩, baud,
                r.oob.foldl oobHandler t⟩
        else
          sendLoop (k.val : Int) data n amount (off : Int) (e + 1)
            ⟨⟨rest, sent ++ [Cmd.cipsend (k.val : Int)
              ((data.drop off).take 2048).length ((data.drop off).take 2048)]⟩, baud,
              r.oob.foldl oobHandler t⟩ := by
  have hb : bitClear t._id_bits (k.val : Int) = false := by
    simpa [connected] using hc
  obtain ⟨h1, h2⟩ := send_size_chunk data off amount hoff
  rw [sendLoop]
  simp only [he, if_true, hb, Bool.false_eq_true, if_false, parser_exchange, bytesAt_eq]
  generalize (if amount > 2048 then 2048 else amount) = sz at h1 h2
  rw [h1]
  subst h2
  cases r.ok <;> rfl

theorem split_cons {α : Type} (x : α) (tr : List α) (P : List α → α → Prop)
    (h0 : P [] x) (h1 : ∀ tr1 y tr2, tr = tr1 ++ y :: tr2 → P (x :: tr1) y) :
    ∀ tr1 y tr2, x :: tr = tr1 ++ y :: tr2 → P tr1 y := by
  intro tr1 y tr2 h
  cases tr1 with
  | nil =>
    simp only [List.nil_append, List.cons.injEq] at h
    rw [← h.1]
    exact h0
  | cons z tr1 =>
    simp only [List.cons_append, List.cons.injEq] at h
    rw [← h.1]
    exact h1 tr1 y tr2 h.2

theorem sendLoop_spec (k : Fin 5) (data : List Nat) (h31 : data.length < 2 ^ 31) :
    ∀ (script : List Reply) (fuel amount off e : Nat) (sent : List Cmd) (baud : Nat)
      (t : Sockets),
      0 < amount → off + amount = data.length → e < 2 →
      connected t (k.val : Int) = true → Oob.closed k ∉ scriptOob script →
      script.length < fuel → amount / 2048 + 2 ≤ script.length + e →
      ∃ (ret : Bool) (s' : ESP32) (tr : List (List Nat × Bool)),
        sendLoop (k.val : Int) data fuel amount (off : Int) e ⟨⟨script, sent⟩, baud, t⟩
          = some (ret, s') ∧
        s'.parser.script = script.drop tr.length ∧
        tr.map Prod.snd = (script.take tr.length).map Reply.ok ∧
        s'.parser.sent = sent ++ tr.map (fun x => Cmd.cipsend (k.val : Int) x.1.length x.1) ∧
        (∀ tr1 c tr2, tr = tr1 ++ c :: tr2 →
          c.1 = (data.drop (off + (acked tr1).length)).take 2048 ∧ c.1 ≠ [] ∧
            e + failures tr1 < 2) ∧
        (ret = true → acked tr = data.drop off ∧ e + failures tr < 2) ∧
        (ret = false → e + failures tr = 2 ∧ (∃ tr0 c, tr = tr0 ++ [(c, false)]) ∧
          off + (acked tr).length < data.length) := by
  intro script
  induction script with
  | nil =>
    intro fuel amount off e sent baud t _ _ he _ _ _ hlen
    simp only [List.length_nil] at hlen
    omega
  | cons r rest ih =>
    intro fuel amount off e sent baud t hpos hoff he hc hcl hfuel hlen
    cases fuel with
    | zero => simp at hfuel
    | succ n =>
      simp only [List.length_cons] at hfuel hlen
      have hcl1 : Oob.closed k ∉ r.oob := by
        intro h; apply hcl; simp [scriptOob, h]
      have hcl2 : Oob.closed k ∉ scriptOob rest := by
        intro h; apply hcl
        simp only [scriptOob, List.flatMap_cons, List.mem_append]
        exact Or.inr h
      have hc' := foldl_stays_connected k r.oob t hc hcl1
      obtain ⟨_, hclen⟩ := send_size_chunk data off amount hoff
      have hdl : (data.drop off).length = amount := by rw [List.length_drop]; omega
      have hcne : (data.drop off).take 2048 ≠ [] := by
        intro h
        rw [h] at hclen
        simp only [List.length_nil] at hclen
        split at hclen <;> omega
      rw [sendLoop_step k data n amount off e r rest sent baud t hoff he hc]
      generalize hcdef : (data.drop off).take 2048 = c at hclen hcne
      cases hr : r.ok
      · -- the exchange failed
        simp only [Bool.false_eq_true, if_false]
        by_cases he1 : e + 1 < 2
        · obtain ⟨ret, s', tr, h1, h2, h3, h4, h5, h6, h7⟩ :=
            ih n amount off (e + 1) (sent ++ [Cmd.cipsend (k.val : Int) c.length c]) baud _
              hpos hoff he1 hc' hcl2 (by omega) (by omega)
          refine ⟨ret, s', (c, false) :: tr, h1, ?_, ?_, ?_, ?_, ?_, ?_⟩
          · simpa using h2
          · simpa [hr] using h3
          · simpa using h4
          · apply split_cons (c, false) tr
              (fun tr1 x => x.1 = (data.drop (off + (acked tr1).length)).take 2048 ∧ x.1 ≠ [] ∧
                e + failures tr1 < 2)
            · simp [acked, failures, hcdef, hcne, he]
            · intro tr1 y tr2 hsp
              have := h5 tr1 y tr2 hsp
              simp only [acked, failures]
              exact ⟨this.1, this.2.1, by omega⟩
          · intro hret
            have := h6 hret
            simp only [acked, failures]
            exact ⟨this.1, by omega⟩
          · intro hret
            obtain ⟨a1, ⟨tr0, c0, a2⟩, a3⟩ := h7 hret
            simp only [acked, failures]
            refine ⟨by omega, ⟨(c, false) :: tr0, c0, by rw [a2]; rfl⟩, a3⟩
        · have he2 : e = 1 := by omega
          subst he2
          cases n with
          | zero => omega
          | succ m =>
            refine ⟨false, ⟨⟨rest, sent ++ [Cmd.cipsend (k.val : Int) c.length c]⟩, baud,
                r.oob.foldl oobHandler t⟩, [(c, false)], by simp [sendLoop], by simp,
              by simp [hr], by simp, ?_, by simp, ?_⟩
            · apply split_cons (c, false) []
                (fun tr1 x => x.1 = (data.drop (off + (acked tr1).length)).take 2048 ∧
                  x.1 ≠ [] ∧ 1 + failures tr1 < 2)
              · simp [acked, failures, hcdef, hcne]
              · intro tr1 y tr2 hsp
                simp at hsp
            · intro _
              refine ⟨by simp [failures], ⟨[], c, rfl⟩, ?_⟩
              simp only [acked, List.length_nil]
              omega
      · -- the exchange succeeded
        simp only [if_true]
        by_cases hz : amount - c.length = 0
        · rw [if_pos hz]
          have hcall : c = data.drop off := by
            rw [← hcdef]
            apply List.take_of_length_le
            rw [hdl]
            split at hclen <;> omega
          refine ⟨true, _, [(c, true)], rfl, by simp, by simp [hr], by simp, ?_, ?_, by simp⟩
          · apply split_cons (c, true) []
              (fun tr1 x => x.1 = (data.drop (off + (acked tr1).length)).take 2048 ∧
                x.1 ≠ [] ∧ e + failures tr1 < 2)
            · simp [acked, failures, hcdef, hcne, he]
            · intro tr1 y tr2 hsp
              simp at hsp
          · intro _
            simp only [acked, failures, List.append_nil]
            exact ⟨hcall, by omega⟩
        · rw [if_neg hz]
          have hgt : amount > 2048 := by
            by_contra hle
            rw [if_neg hle] at hclen
            omega
          rw [if_pos hgt] at hclen
          have hidx : toInt32 ((off : Int) + ((c.length : Nat) : Int)) = ((off + c.length : Nat) : Int) := by
            rw [toInt32_of_lt] <;> push_cast <;> omega
          rw [hidx]
          obtain ⟨ret, s', tr, h1, h2, h3, h4, h5, h6, h7⟩ :=
            ih n (amount - c.length) (off + c.length) e
              (sent ++ [Cmd.cipsend (k.val : Int) c.length c]) baud _
              (by omega) (by omega) he hc' hcl2 (by omega) (by omega)
          have hdrop : data.drop off = c ++ data.drop (off + c.length) := by
            have h := (List.take_append_drop 2048 (data.drop off)).symm
            rw [hcdef, List.drop_drop] at h
            rw [hclen]
            exact h
          refine ⟨ret, s', (c, true) :: tr, h1, ?_, ?_, ?_, ?_, ?_, ?_⟩
          · simpa using h2
          · simpa [hr] using h3
          · simpa using h4
          · apply split_cons (c, true) tr
              (fun tr1 x => x.1 = (data.drop (off + (acked tr1).length)).take 2048 ∧ x.1 ≠ [] ∧
                e + failures tr1 < 2)
            · simp [acked, failures, hcdef, hcne, he]
            · intro tr1 y tr2 hsp
              have := h5 tr1 y tr2 hsp
              simp only [acked, failures, List.length_append]
              rw [← Nat.add_assoc]
              exact this
          · intro hret
            have := h6 hret
            simp only [acked, failures]
            rw [this.1]
            exact ⟨hdrop.symm, this.2⟩
          · intro hret
            obtain ⟨a1, ⟨tr0, c0, a2⟩, a3⟩ := h7 hret
            simp only [acked, failures, List.length_append]
            refine ⟨a1, ⟨(c, true) :: tr0, c0, by rw [a2]; rfl⟩, by omega⟩

/-- C5: with the command channel an arbitrary script of exchange outcomes, for
a socket `k` whose bit is set and stays set (no closed notification for `k`
fires) and data of length `0 < n < 2^31`, `send(k, data, n)` returns; every
chunk it writes is the next at most 2048 bytes of `data` after the bytes
acknowledged so far (so a failed exchange is followed by the same bytes from
the same offset), it is written only while fewer than two exchanges have
failed, `send` returns true exactly when all of `data` has been acknowledged
with fewer than two failures, the acknowledged chunks then concatenate to
`data`, and it returns false exactly when two exchanges have failed, the last
exchange being the second failure. -/
theorem send_chunks_and_retries (k : Fin 5) (data : List Nat) (s : ESP32)
    (hn : 0 < data.length) (h31 : data.length < 2 ^ 31)
    (hbit : connected s.sock (k.val : Int) = true)
    (hstay : Oob.closed k ∉ scriptOob s.parser.script)
    (hlen : data.length / 2048 + 2 ≤ s.parser.script.length) :
    ∃ (ret : Bool) (s' : ESP32) (tr : List (List Nat × Bool)),
      send (k.val : Int) data data.length s = some (ret, s') ∧
      s'.parser.script = s.parser.script.drop tr.length ∧
      tr.map Prod.snd = (s.parser.script.take tr.length).map Reply.ok ∧
      s'.parser.sent
        = s.parser.sent ++ tr.map (fun x => Cmd.cipsend (k.val : Int) x.1.length x.1) ∧
      (∀ tr1 c tr2, tr = tr1 ++ c :: tr2 →
        c.1 = (data.drop (acked tr1).length).take 2048 ∧
        c.1.length = min (data.length - (acked tr1).length) 2048 ∧
        0 < c.1.length ∧ c.1.length ≤ 2048 ∧ failures tr1 < 2) ∧
      (ret = true ↔ (acked tr = data ∧ failures tr < 2)) ∧
      (ret = false ↔ failures tr = 2) ∧
      (ret = false → ∃ tr0 c, tr = tr0 ++ [(c, false)]) := by
  obtain ⟨⟨script, sent⟩, baud, t⟩ := s
  simp only at hbit hstay hlen
  obtain ⟨ret, s', tr, h1, h2, h3, h4, h5, h6, h7⟩ :=
    sendLoop_spec k data h31 script (script.length + 1) data.length 0 0 sent baud t hn
      (by omega) (by decide) hbit hstay (by omega) (by omega)
  refine ⟨ret, s', tr, ?_, h2, h3, h4, ?_, ?_, ?_, ?_⟩
  · unfold send
    rw [if_neg (by omega)]
    exact h1
  · intro tr1 c tr2 hsp
    obtain ⟨a1, a2, a3⟩ := h5 tr1 c tr2 hsp
    simp only [Nat.zero_add] at a1 a3
    have hl : c.1.length = min (data.length - (acked tr1).length) 2048 := by
      rw [a1, List.length_take, List.length_drop, Nat.min_comm]
    refine ⟨a1, hl, List.length_pos.mpr a2, ?_, a3⟩
    rw [hl]
    exact Nat.min_le_right _ _
  · constructor
    · intro hret
      have := h6 hret
      simpa using this
    · intro hd
      cases ret with
      | true => rfl
      | false =>
        have := (h7 rfl).2.2
        rw [hd.1] at this
        omega
  · constructor
    · intro hret
      have := (h7 hret).1
      omega
    · intro hf
      cases ret with
      | false => rfl
      | true =>
        have := (h6 rfl).2
        omega
  · intro hret
    exact (h7 hret).2.1

theorem send_chunks_and_retries_witness :
    (0 < [7, 8, 9].length ∧ [7, 8, 9].length < 2 ^ 31 ∧
      connected (ESP32.mk ⟨[Reply.plain false, Reply.plain true], []⟩ 115200
        ⟨[], none, Link.head, 1, false, []⟩).sock (((0 : Fin 5).val : Nat) : Int) = true) ∧
    ∃ (ret : Bool) (s' : ESP32) (tr : List (List Nat × Bool)),
      send (((0 : Fin 5).val : Nat) : Int) [7, 8, 9] [7, 8, 9].length
        (ESP32.mk ⟨[Reply.plain false, Reply.plain true], []⟩ 115200
          ⟨[], none, Link.head, 1, false, []⟩) = some (ret, s') ∧
      s'.parser.script = (ESP32.mk ⟨[Reply.plain false, Reply.plain true], []⟩ 115200
          ⟨[], none, Link.head, 1, false, []⟩).parser.script.drop tr.length ∧
      tr.map Prod.snd = ((ESP32.mk ⟨[Reply.plain false, Reply.plain true], []⟩ 115200
          ⟨[], none, Link.head, 1, false, []⟩).parser.script.take tr.length).map Reply.ok ∧
      s'.parser.sent
        = (ESP32.mk ⟨[Reply.plain false, Reply.plain true], []⟩ 115200
            ⟨[], none, Link.head, 1, false, []⟩).parser.sent ++
          tr.map (fun x => Cmd.cipsend (((0 : Fin 5).val : Nat) : Int) x.1.length x.1) ∧
      (∀ tr1 c tr2, tr = tr1 ++ c :: tr2 →
        c.1 = (([7, 8, 9] : List Nat).drop (acked tr1).length).take 2048 ∧
        c.1.length = min (([7, 8, 9] : List Nat).length - (acked tr1).length) 2048 ∧
        0 < c.1.length ∧ c.1.length ≤ 2048 ∧ failures tr1 < 2) ∧
      (ret = true ↔ (acked tr = [7, 8, 9] ∧ failures tr < 2)) ∧
      (ret = false ↔ failures tr = 2) ∧
      (ret = false → ∃ tr0 c, tr = tr0 ++ [(c, false)]) :=
  ⟨by decide, send_chunks_and_retries 0 [7, 8, 9]
    (ESP32.mk ⟨[Reply.plain false, Reply.plain true], []⟩ 115200
      ⟨[], none, Link.head, 1, false, []⟩)
    (by decide) (by decide) (by decide) (by decide) (by decide)⟩

/-! ### The heap -/

theorem heapGet_cons (h : List (Addr × packet)) (a b : Addr) (p : packet) :
    heapGet ((b, p) :: h) a = if b = a then some p else heapGet h a := rfl

theorem heapGet_heapSet (h : List (Addr × packet)) (a b : Addr) (p : packet) :
    heapGet (heapSet h a p) b
      = if a = b then (heapGet h a).map (fun _ => p) else heapGet h b := by
  induction h with
  | nil => simp [heapSet, heapGet]
  | cons x r ih =>
    obtain ⟨c, q⟩ := x
    by_cases hca : c = a
    · subst hca
      by_cases hcb : c = b
      · subst hcb
        simp [heapSet, heapGet]
      · simp [heapSet, heapGet, hcb]
    · by_cases hab : a = b
      · subst hab
        simp only [heapSet, hca, if_false, heapGet, if_true]
        rw [ih]
        simp
      · simp only [heapSet, hca, if_false, heapGet, hab]
        rw [ih]
        simp [hab]

theorem heapGet_heapSet_ne (h : List (Addr × packet)) (a b : Addr) (p : packet) (hab : a ≠ b) :
    heapGet (heapSet h a p) b = heapGet h b := by
  rw [heapGet_heapSet, if_neg hab]

theorem heapGet_heapSet_same (h : List (Addr × packet)) (a : Addr) (p q : packet)
    (hq : heapGet h a = some q) : heapGet (heapSet h a p) a = some p := by
  rw [heapGet_heapSet, if_pos rfl, hq]
  rfl

theorem heapGet_heapFree_ne (h : List (Addr × packet)) (a b : Addr) (hab : a ≠ b) :
    heapGet (heapFree h a) b = heapGet h b := by
  induction h with
  | nil => rfl
  | cons x r ih =>
    obtain ⟨c, q⟩ := x
    by_cases hca : c = a
    · subst hca
      simp [heapFree, heapGet, hab]
    · simp only [heapFree, hca, if_false, heapGet]
      rw [ih]

theorem heapSet_length (h : List (Addr × packet)) (a : Addr) (p : packet) :
    (heapSet h a p).length = h.length := by
  induction h with
  | nil => rfl
  | cons x r ih =>
    obtain ⟨c, q⟩ := x
    by_cases hca : c = a
    · simp [heapSet, hca]
    · simp [heapSet, hca, ih]

theorem heapFree_length (h : List (Addr × packet)) (a : Addr) (q : packet)
    (hq : heapGet h a = some q) : (heapFree h a).length + 1 = h.length := by
  induction h with
  | nil => simp [heapGet] at hq
  | cons x r ih =>
    obtain ⟨c, p⟩ := x
    by_cases hca : c = a
    · simp [heapFree, hca]
    · simp only [heapGet, hca, if_false] at hq
      simp [heapFree, hca, ih hq]

theorem le_maxKey (h : List (Addr × packet)) (a : Addr) (q : packet)
    (hq : heapGet h a = some q) : a ≤ (h.map Prod.fst).foldr max 0 := by
  induction h with
  | nil => simp [heapGet] at hq
  | cons x r ih =>
    obtain ⟨c, p⟩ := x
    simp only [List.map_cons, List.foldr_cons]
    by_cases hca : c = a
    · subst hca
      exact Nat.le_max_left _ _
    · simp only [heapGet, hca, if_false] at hq
      exact Nat.le_trans (ih hq) (Nat.le_max_right _ _)

theorem lt_fresh (h : List (Addr × packet)) (a : Addr) (q : packet)
    (hq : heapGet h a = some q) : a < fresh h :=
  Nat.lt_succ_of_le (le_maxKey h a q hq)

theorem fresh_ne (h : List (Addr × packet)) (a : Addr) (q : packet)
    (hq : heapGet h a = some q) : fresh h ≠ a :=
  Nat.ne_of_gt (lt_fresh h a q hq)

/-! ### Chains -/

theorem walk_congr (h h' : List (Addr × packet)) (as : List Addr) (x y : Option Addr)
    (hh : ∀ a ∈ as, (heapGet h' a).map packet.next = (heapGet h a).map packet.next)
    (hw : Walk h x as y) : Walk h' x as y := by
  induction as generalizing x with
  | nil => exact hw
  | cons a rest ih =>
    obtain ⟨hx, nx, hn, hr⟩ := hw
    refine ⟨hx, nx, ?_, ih nx (fun b hb => hh b (List.mem_cons_of_mem _ hb)) hr⟩
    rw [hh a (List.mem_cons_self _ _)]
    exact hn

theorem walk_append (h : List (Addr × packet)) (as bs : List Addr) (x z : Option Addr) :
    Walk h x (as ++ bs) z ↔ ∃ y, Walk h x as y ∧ Walk h y bs z := by
  induction as generalizing x with
  | nil =>
    constructor
    · intro hw
      exact ⟨x, rfl, hw⟩
    · rintro ⟨y, hy, hw⟩
      have : x = y := hy
      subst this
      exact hw
  | cons a rest ih =>
    constructor
    · rintro ⟨hx, nx, hn, hr⟩
      obtain ⟨y, h1, h2⟩ := (ih nx).1 hr
      exact ⟨y, ⟨hx, nx, hn, h1⟩, h2⟩
    · rintro ⟨y, ⟨hx, nx, hn, h1⟩, h2⟩
      exact ⟨hx, nx, hn, (ih nx).2 ⟨y, h1, h2⟩⟩

theorem walk_live (h : List (Addr × packet)) (as : List Addr) (x y : Option Addr)
    (hw : Walk h x as y) : ∀ a ∈ as, ∃ p, heapGet h a = some p := by
  induction as generalizing x with
  | nil => intro a ha; simp at ha
  | cons b rest ih =>
    obtain ⟨_, nx, hn, hr⟩ := hw
    intro a ha
    rcases List.mem_cons.mp ha with rfl | hm
    · cases hg : heapGet h a with
      | none => rw [hg] at hn; simp at hn
      | some p => exact ⟨p, rfl⟩
    · exact ih nx hr a hm

theorem lastLink_concat (as : List Addr) (b : Addr) : lastLink (as ++ [b]) = Link.next b := by
  induction as with
  | nil => rfl
  | cons a rest ih =>
    cases rest with
    | nil => rfl
    | cons c r =>
      simp only [List.cons_append] at ih ⊢
      rw [lastLink]
      exact ih

theorem deref_lastLink (t : Sockets) (pre : List Addr) (y : Option Addr)
    (hw : Walk t.heap t._packets pre y) : deref t (lastLink pre) = some y := by
  rcases List.eq_nil_or_concat pre with rfl | ⟨pre0, b, rfl⟩
  · have : t._packets = y := hw
    simp [lastLink, deref, this]
  · rw [List.concat_eq_append] at hw ⊢
    rw [lastLink_concat]
    obtain ⟨z, _, hz⟩ := (walk_append _ _ _ _ _).1 hw
    obtain ⟨_, nx, hn, hr⟩ := hz
    have : nx = y := hr
    subst this
    simpa [deref] using hn

theorem reach_of_walk (h : List (Addr × packet)) (as : List Addr) (x : Option Addr) (n : Nat)
    (hw : Walk h x as none) (hn : as.length ≤ n) : reach h n x = as := by
  induction as generalizing x n with
  | nil =>
    have : x = none := hw
    subst this
    cases n <;> rfl
  | cons a rest ih =>
    obtain ⟨hx, nx, hnx, hr⟩ := hw
    subst hx
    cases n with
    | zero => simp at hn
    | succ m =>
      cases hg : heapGet h a with
      | none => rw [hg] at hnx; simp at hnx
      | some p =>
        rw [hg] at hnx
        simp only [Option.map_some', Option.some.injEq] at hnx
        subst hnx
        simp only [reach, hg]
        rw [ih p.next m hr (by simpa using hn)]

theorem chainAddrs_of_inv (t : Sockets) (as : List Addr) (hi : Inv t as) : chainAddrs t = as :=
  reach_of_walk _ _ _ _ hi.chain hi.room

theorem queue_of_inv (t : Sockets) (as : List Addr) (hi : Inv t as) :
    queue t = segsOf t.heap as := by
  unfold queue segsOf
  rw [chainAddrs_of_inv t as hi]

theorem segsOf_congr (h h' : List (Addr × packet)) (as : List Addr)
    (hh : ∀ a ∈ as, (heapGet h' a).map packet.seg = (heapGet h a).map packet.seg) :
    segsOf h' as = segsOf h as := by
  induction as with
  | nil => rfl
  | cons a rest ih =>
    unfold segsOf at *
    rw [List.filterMap_cons, List.filterMap_cons, hh a (List.mem_cons_self _ _),
      ih (fun b hb => hh b (List.mem_cons_of_mem _ hb))]

theorem segsOf_append (h : List (Addr × packet)) (as bs : List Addr) :
    segsOf h (as ++ bs) = segsOf h as ++ segsOf h bs := by
  unfold segsOf
  rw [List.filterMap_append]

/-! ### Frame arrival -/

theorem packet_handler_ok (f : Frame) (t : Sockets) (id : Int) (amount : Nat)
    (hh : f.hdr = some (id, amount)) (hm : f.mallocOk = true)
    (ha : parser_read f.avail amount ≠ 0) :
    _packet_handler f t
      = { assign { t with heap := (fresh t.heap, ⟨none, id, amount, 0, f.payload amount⟩)
            :: t.heap } t._packets_end (some (fresh t.heap)) with
          _packets_end := Link.next (fresh t.heap) } := by
  unfold _packet_handler
  rw [hh]
  simp only [hm, if_true, if_neg ha]

theorem packet_handler_drop (f : Frame) (t : Sockets)
    (h : f.hdr = none ∨ f.mallocOk = false ∨
      ∃ id amount, f.hdr = some (id, amount) ∧ parser_read f.avail amount = 0) :
    _packet_handler f t = t := by
  unfold _packet_handler
  rcases h with h | h | ⟨id, amount, h1, h2⟩
  · rw [h]
  · cases f.hdr with
    | none => rfl
    | some x => simp [h]
  · rw [h1]
    simp only [h2, if_true]
    split <;> rfl

theorem inv_append (f : Frame) (t : Sockets) (as : List Addr) (id : Int) (amount : Nat)
    (hi : Inv t as)
    (hh : f.hdr = some (id, amount)) (hm : f.mallocOk = true)
    (ha : parser_read f.avail amount ≠ 0) :
    Inv (_packet_handler f t) (as ++ [fresh t.heap]) ∧
    segsOf (_packet_handler f t).heap (as ++ [fresh t.heap])
      = segsOf t.heap as ++ [⟨id, amount, 0, f.payload amount⟩] := by
  rw [packet_handler_ok f t id amount hh hm ha]
  have hlive := walk_live _ _ _ _ hi.chain
  have hfresh : ∀ c ∈ as, fresh t.heap ≠ c := by
    intro c hc
    obtain ⟨p, hp⟩ := hlive c hc
    exact fresh_ne _ _ _ hp
  rcases List.eq_nil_or_concat as with rfl | ⟨as0, b, rfl⟩
  · have htail : t._packets_end = Link.head := hi.tail
    rw [htail]
    simp only [assign, List.nil_append]
    refine ⟨⟨?_, by simp, rfl, by simp⟩, ?_⟩
    · exact ⟨rfl, none, by simp [heapGet], rfl⟩
    · simp [segsOf, heapGet, packet.seg]
  · rw [List.concat_eq_append] at hi hlive hfresh ⊢
    have htail : t._packets_end = Link.next b := by
      rw [hi.tail, lastLink_concat]
    obtain ⟨pb, hpb⟩ := hlive b (by simp)
    have hab : fresh t.heap ≠ b := hfresh b (by simp)
    have hb1 : heapGet ((fresh t.heap, ⟨none, id, amount, 0, f.payload amount⟩) :: t.heap) b
        = some pb := by
      rw [heapGet_cons, if_neg hab, hpb]
    rw [htail]
    simp only [assign, hb1]
    have hnd := hi.nodup
    rw [List.nodup_append] at hnd
    have hb0 : ∀ c ∈ as0, b ≠ c := by
      intro c hc hbc
      subst hbc
      exact hnd.2.2 hc (by simp)
    obtain ⟨y, hw0, hwb⟩ := (walk_append _ _ _ _ _).1 hi.chain
    obtain ⟨hy, nx, _, _⟩ := hwb
    subst hy
    -- lookups in the new heap
    have hget0 : ∀ c ∈ as0,
        heapGet (heapSet ((fresh t.heap, ⟨none, id, amount, 0, f.payload amount⟩) :: t.heap)
          b ⟨some (fresh t.heap), pb.id, pb.len, pb.index, pb.data⟩) c = heapGet t.heap c := by
      intro c hc
      rw [heapGet_heapSet_ne _ _ _ _ (hb0 c hc), heapGet_cons,
        if_neg (hfresh c (by simp [hc]))]
    have hgetb :
        heapGet (heapSet ((fresh t.heap, ⟨none, id, amount, 0, f.payload amount⟩) :: t.heap)
          b ⟨some (fresh t.heap), pb.id, pb.len, pb.index, pb.data⟩) b
          = some ⟨some (fresh t.heap), pb.id, pb.len, pb.index, pb.data⟩ :=
      heapGet_heapSet_same _ _ _ _ hb1
    have hgeta :
        heapGet (heapSet ((fresh t.heap, ⟨none, id, amount, 0, f.payload amount⟩) :: t.heap)
          b ⟨some (fresh t.heap), pb.id, pb.len, pb.index, pb.data⟩) (fresh t.heap)
          = some ⟨none, id, amount, 0, f.payload amount⟩ := by
      rw [heapGet_heapSet_ne _ _ _ _ (Ne.symm hab), heapGet_cons, if_pos rfl]
    refine ⟨⟨?_, ?_, ?_, ?_⟩, ?_⟩
    · simp only
      rw [walk_append]
      refine ⟨some (fresh t.heap), ?_, ⟨rfl, none, by rw [hgeta]; rfl, rfl⟩⟩
      rw [walk_append]
      refine ⟨some b, ?_, ⟨rfl, some (fresh t.heap), by rw [hgetb]; rfl, rfl⟩⟩
      exact walk_congr _ _ _ _ _ (fun c hc => by rw [hget0 c hc]) hw0
    · rw [List.nodup_append]
      refine ⟨hi.nodup, by simp, ?_⟩
      intro c hc hc2
      have : c = fresh t.heap := by simpa using hc2
      exact hfresh c hc this.symm
    · simp only
      rw [lastLink_concat]
    · simp only [List.length_append, List.length_cons, List.length_nil, heapSet_length]
      have := hi.room
      simp only [List.length_append, List.length_cons, List.length_nil] at this
      omega
    · rw [segsOf_append, segsOf_append, segsOf_append]
      have e0 := segsOf_congr t.heap _ as0 (fun c hc => by rw [hget0 c hc])
      rw [e0]
      simp [segsOf, hgetb, hgeta, hpb, packet.seg]

theorem inv_socket_handler (c : Bool) (id : Int) (t : Sockets) (as : List Addr)
    (hi : Inv t as) : Inv (socket_handler c id t) as := by
  obtain ⟨h1, h2, h3, _⟩ := socket_handler_frame c id t
  exact ⟨by rw [h1, h2]; exact hi.chain, hi.nodup, by rw [h3]; exact hi.tail,
    by rw [h1]; exact hi.room⟩

theorem inv_ctor (script : List Reply) : Inv (ctor script).sock [] :=
  ⟨rfl, List.nodup_nil, rfl, Nat.le_refl _⟩

/-! ### The queue scan of `recv` -/

theorem lastLink_append_of_ne_nil (l r : List Addr) (hr : r ≠ []) :
    lastLink (l ++ r) = lastLink r := by
  rcases List.eq_nil_or_concat r with rfl | ⟨r0, b, rfl⟩
  · exact absurd rfl hr
  · rw [List.concat_eq_append, ← List.append_assoc, lastLink_concat, lastLink_concat]

theorem lastLink_mem (r : List Addr) (hr : r ≠ []) : ∃ c ∈ r, lastLink r = Link.next c := by
  rcases List.eq_nil_or_concat r with rfl | ⟨r0, b, rfl⟩
  · exact absurd rfl hr
  · rw [List.concat_eq_append]
    exact ⟨b, by simp, lastLink_concat r0 b⟩

theorem assign_lastLink (t : Sockets) (pre : List Addr) (y v : Option Addr)
    (hw : Walk t.heap t._packets pre y) (hnd : pre.Nodup) :
    Walk (assign t (lastLink pre) v).heap (assign t (lastLink pre) v)._packets pre v ∧
    (∀ c, c ∉ pre → heapGet (assign t (lastLink pre) v).heap c = heapGet t.heap c) ∧
    (∀ c, (heapGet (assign t (lastLink pre) v).heap c).map packet.seg
      = (heapGet t.heap c).map packet.seg) ∧
    (assign t (lastLink pre) v).heap.length = t.heap.length := by
  rcases List.eq_nil_or_concat pre with rfl | ⟨pre0, b, rfl⟩
  · have hy : t._packets = y := hw
    exact ⟨rfl, fun _ _ => rfl, fun _ => rfl, rfl⟩
  · rw [List.concat_eq_append] at hw hnd ⊢
    rw [lastLink_concat]
    obtain ⟨z, hw0, hz⟩ := (walk_append _ _ _ _ _).1 hw
    obtain ⟨hzb, nx, hn, _⟩ := hz
    subst hzb
    cases hg : heapGet t.heap b with
    | none => rw [hg] at hn; simp at hn
    | some pb =>
      simp only [assign, hg]
      rw [List.nodup_append] at hnd
      have hb0 : ∀ c ∈ pre0, b ≠ c := by
        intro c hc hbc
        subst hbc
        exact hnd.2.2 hc (by simp)
      refine ⟨?_, ?_, ?_, heapSet_length _ _ _⟩
      · rw [walk_append]
        refine ⟨some b, ?_, ⟨rfl, v, ?_, rfl⟩⟩
        · exact walk_congr _ _ _ _ _
            (fun c hc => by rw [heapGet_heapSet_ne _ _ _ _ (hb0 c hc)]) hw0
        · rw [heapGet_heapSet_same _ _ _ _ hg]
          rfl
      · intro c hc
        have : b ≠ c := by
          intro hbc
          subst hbc
          exact hc (by simp)
        rw [heapGet_heapSet_ne _ _ _ _ this]
      · intro c
        by_cases hbc : b = c
        · subst hbc
          rw [heapGet_heapSet_same _ _ _ _ hg, hg]
          rfl
        · rw [heapGet_heapSet_ne _ _ _ _ hbc]

theorem assign_frame_end (t : Sockets) (p : Link) (v : Option Addr) :
    (assign t p v)._packets_end = t._packets_end ∧ (assign t p v)._id_bits = t._id_bits ∧
    (assign t p v)._server_act = t._server_act ∧ (assign t p v)._accept_id = t._accept_id := by
  obtain ⟨h1, h2, h3, h4⟩ := assign_frame t p v
  exact ⟨h4, h1, h2, h3⟩

theorem recvScan_step (id : Int) (amount n : Nat) (p : Link) (t : Sockets) (a : Addr)
    (q : packet) (hd : deref t p = some (some a)) (hq : heapGet t.heap a = some q) :
    recvScan id amount (n + 1) p t
      = if q.id = id then
          if q.len ≤ amount then
            some (some (toInt32 q.len, (q.data.drop q.index).take q.len,
              { assign (if t._packets_end = Link.next a then { t with _packets_end := p } else t)
                  p q.next with
                heap := heapFree (assign (if t._packets_end = Link.next a
                  then { t with _packets_end := p } else t) p q.next).heap a }))
          else
            some (some (toInt32 amount, (q.data.drop q.index).take amount,
              { t with heap := (heapSet t.heap a
                  ⟨q.next, q.id, q.len - amount, (q.index + amount) % 2 ^ 32, q.data⟩) }))
        else recvScan id amount n (Link.next a) t := by
  rw [recvScan]
  simp only [hd, hq]

theorem walk_cons_live (h : List (Addr × packet)) (a : Addr) (rest : List Addr)
    (y z : Option Addr) (hw : Walk h y (a :: rest) z) :
    y = some a ∧ ∃ q, heapGet h a = some q ∧ Walk h q.next rest z := by
  obtain ⟨hy, nx, hn, hr⟩ := hw
  refine ⟨hy, ?_⟩
  cases hg : heapGet h a with
  | none => rw [hg] at hn; simp at hn
  | some q =>
    rw [hg] at hn
    simp only [Option.map_some', Option.some.injEq] at hn
    subst hn
    exact ⟨q, rfl, hr⟩

theorem segsOf_cons (h : List (Addr × packet)) (a : Addr) (rest : List Addr) (q : packet)
    (hq : heapGet h a = some q) : segsOf h (a :: rest) = q.seg :: segsOf h rest := by
  simp [segsOf, hq]

/-- Removal of the packet at `a`, found behind the chain `pre`. -/
theorem inv_unlink (t : Sockets) (pre rest : List Addr) (a : Addr) (q : packet)
    (hi : Inv t (pre ++ a :: rest)) (hpre : Walk t.heap t._packets pre (some a))
    (hq : heapGet t.heap a = some q) (hrest : Walk t.heap q.next rest none) :
    Inv { assign (if t._packets_end = Link.next a
            then { t with _packets_end := lastLink pre } else t) (lastLink pre) q.next with
          heap := heapFree (assign (if t._packets_end = Link.next a
            then { t with _packets_end := lastLink pre } else t) (lastLink pre) q.next).heap a }
      (pre ++ rest) ∧
    segsOf (heapFree (assign (if t._packets_end = Link.next a
        then { t with _packets_end := lastLink pre } else t) (lastLink pre) q.next).heap a)
        (pre ++ rest)
      = segsOf t.heap pre ++ segsOf t.heap rest := by
  have hnd := hi.nodup
  have hnd' := hnd
  rw [List.nodup_append] at hnd
  obtain ⟨hndpre, hndsuf, hdisj⟩ := hnd
  have ha_rest : a ∉ rest := (List.nodup_cons.mp hndsuf).1
  have hnd_rest : rest.Nodup := (List.nodup_cons.mp hndsuf).2
  have ha_pre : a ∉ pre := fun h => hdisj h (by simp)
  have hdisj2 : ∀ c ∈ rest, c ∉ pre := fun c hc hp => hdisj hp (by simp [hc])
  -- the state before the store through `p`
  generalize ht1 : (if t._packets_end = Link.next a
      then { t with _packets_end := lastLink pre } else t) = t1
  have h1heap : t1.heap = t.heap := by rw [← ht1]; split <;> rfl
  have h1pk : t1._packets = t._packets := by rw [← ht1]; split <;> rfl
  have h1end : t1._packets_end = lastLink (pre ++ rest) := by
    rw [← ht1]
    by_cases hr : rest = []
    · subst hr
      have : t._packets_end = Link.next a := by rw [hi.tail, lastLink_concat]
      rw [if_pos this]
      simp
    · have e : lastLink (pre ++ a :: rest) = lastLink rest := by
        rw [← List.singleton_append, ← List.append_assoc]
        exact lastLink_append_of_ne_nil _ _ hr
      obtain ⟨c, hc, hcl⟩ := lastLink_mem rest hr
      have : t._packets_end ≠ Link.next a := by
        rw [hi.tail, e, hcl]
        intro h
        injection h with h
        subst h
        exact ha_rest hc
      rw [if_neg this, hi.tail, e, lastLink_append_of_ne_nil _ _ hr]
  have hw1 : Walk t1.heap t1._packets pre (some a) := by rw [h1heap, h1pk]; exact hpre
  obtain ⟨hA, hB, hC, hD⟩ := assign_lastLink t1 pre (some a) q.next hw1 hndpre
  obtain ⟨hE, _, _, _⟩ := assign_frame_end t1 (lastLink pre) q.next
  generalize assign t1 (lastLink pre) q.next = t2 at hA hB hC hD hE
  have hget : ∀ c, c ≠ a →
      (heapGet (heapFree t2.heap a) c).map packet.seg = (heapGet t.heap c).map packet.seg := by
    intro c hc
    rw [heapGet_heapFree_ne _ _ _ (Ne.symm hc), hC c, h1heap]
  have hlive2 : ∃ q2, heapGet t2.heap a = some q2 := by
    have := hB a ha_pre
    rw [h1heap, hq] at this
    exact ⟨q, this⟩
  obtain ⟨q2, hq2⟩ := hlive2
  refine ⟨⟨?_, ?_, ?_, ?_⟩, ?_⟩
  · simp only
    rw [walk_append]
    refine ⟨q.next, ?_, ?_⟩
    · exact walk_congr _ _ _ _ _
        (fun c hc => by
          rw [heapGet_heapFree_ne _ _ _ (ne_of_mem_of_not_mem hc ha_pre).symm]) hA
    · exact walk_congr _ _ _ _ _
        (fun c hc => by
          rw [heapGet_heapFree_ne _ _ _ (ne_of_mem_of_not_mem hc ha_rest).symm,
            hB c (hdisj2 c hc), h1heap]) hrest
  · rw [List.nodup_append]
    exact ⟨hndpre, hnd_rest, fun c hx hy => hdisj hx (List.mem_cons_of_mem _ hy)⟩
  · simp only
    rw [hE, h1end]
  · simp only
    have h3 := heapFree_length t2.heap a q2 hq2
    have h4 := hi.room
    simp only [List.length_append, List.length_cons] at h4 ⊢
    rw [hD, h1heap] at h3
    omega
  · rw [segsOf_append,
      segsOf_congr t.heap _ pre (fun c hc => hget c (ne_of_mem_of_not_mem hc ha_pre)),
      segsOf_congr t.heap _ rest (fun c hc => hget c (ne_of_mem_of_not_mem hc ha_rest))]

/-- A partial read: the packet at `a` stays linked, only its length and cursor change. -/
theorem inv_advance (t : Sockets) (pre rest : List Addr) (a : Addr) (q : packet) (l i : Nat)
    (hi : Inv t (pre ++ a :: rest)) (hq : heapGet t.heap a = some q) :
    Inv { t with heap := heapSet t.heap a ⟨q.next, q.id, l, i, q.data⟩ } (pre ++ a :: rest) ∧
    segsOf (heapSet t.heap a ⟨q.next, q.id, l, i, q.data⟩) (pre ++ a :: rest)
      = segsOf t.heap pre ++ ⟨q.id, l, i, q.data⟩ :: segsOf t.heap rest := by
  have hnd := hi.nodup
  rw [List.nodup_append] at hnd
  obtain ⟨_, hndsuf, hdisj⟩ := hnd
  have ha_rest : a ∉ rest := (List.nodup_cons.mp hndsuf).1
  have ha_pre : a ∉ pre := fun h => hdisj h (by simp)
  have hnext : ∀ c, (heapGet (heapSet t.heap a ⟨q.next, q.id, l, i, q.data⟩) c).map packet.next
      = (heapGet t.heap c).map packet.next := by
    intro c
    by_cases hac : a = c
    · subst hac
      rw [heapGet_heapSet_same _ _ _ _ hq, hq]
      rfl
    · rw [heapGet_heapSet_ne _ _ _ _ hac]
  refine ⟨⟨?_, hi.nodup, hi.tail, ?_⟩, ?_⟩
  · exact walk_congr _ _ _ _ _ (fun c _ => hnext c) hi.chain
  · simp only [heapSet_length]
    exact hi.room
  · rw [segsOf_append, segsOf_cons _ a rest _ (heapGet_heapSet_same _ _ _ _ hq)]
    rw [segsOf_congr t.heap _ pre (fun c hc => by
        rw [heapGet_heapSet_ne _ _ _ _ (ne_of_mem_of_not_mem hc ha_pre).symm]),
      segsOf_congr t.heap _ rest (fun c hc => by
        rw [heapGet_heapSet_ne _ _ _ _ (ne_of_mem_of_not_mem hc ha_rest).symm])]
    rfl

theorem recvScan_loop (id : Int) (amount : Nat) (t : Sockets) :
    ∀ (suf pre : List Addr) (y : Option Addr) (fuel : Nat),
      Inv t (pre ++ suf) → Walk t.heap t._packets pre y → Walk t.heap y suf none →
      suf.length < fuel →
      ((specRecv id amount (segsOf t.heap suf)).1 = none →
        recvScan id amount fuel (lastLink pre) t = some none) ∧
      (∀ ret bytes, (specRecv id amount (segsOf t.heap suf)).1 = some (ret, bytes) →
        ∃ t' suf', recvScan id amount fuel (lastLink pre) t = some (some (ret, bytes, t')) ∧
          Inv t' (pre ++ suf') ∧
          segsOf t'.heap (pre ++ suf')
            = segsOf t.heap pre ++ (specRecv id amount (segsOf t.heap suf)).2 ∧
          t'._id_bits = t._id_bits ∧ t'._server_act = t._server_act ∧
          t'._accept_id = t._accept_id) := by
  intro suf
  induction suf with
  | nil =>
    intro pre y fuel _ hpre hy hfuel
    have hyn : y = none := hy
    subst hyn
    cases fuel with
    | zero => simp at hfuel
    | succ n =>
      constructor
      · intro _
        rw [recvScan]
        simp only [deref_lastLink t pre none hpre]
      · intro ret bytes h
        simp [segsOf, specRecv] at h
  | cons a rest ih =>
    intro pre y fuel hi hpre hy hfuel
    obtain ⟨hya, q, hq, hrest⟩ := walk_cons_live _ _ _ _ _ hy
    subst hya
    cases fuel with
    | zero => simp at hfuel
    | succ n =>
      have hd : deref t (lastLink pre) = some (some a) := deref_lastLink t pre _ hpre
      rw [recvScan_step id amount n (lastLink pre) t a q hd hq, segsOf_cons _ a rest q hq]
      by_cases hid : q.id = id
      · subst hid
        by_cases hlen : q.len ≤ amount
        · rw [if_pos rfl, if_pos hlen]
          have hspec : specRecv q.id amount (q.seg :: segsOf t.heap rest)
              = (some (toInt32 q.len, (q.data.drop q.index).take q.len), segsOf t.heap rest) := by
            simp [specRecv, packet.seg, hlen, Segment.remaining]
          rw [hspec]
          constructor
          · intro h
            simp at h
          · intro ret bytes h
            simp only [Option.some.injEq, Prod.mk.injEq] at h
            obtain ⟨h1, h2⟩ := h
            subst h1 h2
            obtain ⟨hI, hS⟩ := inv_unlink t pre rest a q hi hpre hq hrest
            refine ⟨_, rest, rfl, hI, hS, ?_, ?_, ?_⟩
            · simp only [(assign_frame_end _ _ _).2.1]
              split <;> rfl
            · simp only [(assign_frame_end _ _ _).2.2.1]
              split <;> rfl
            · simp only [(assign_frame_end _ _ _).2.2.2]
              split <;> rfl
        · rw [if_pos rfl, if_neg hlen]
          have hspec : specRecv q.id amount (q.seg :: segsOf t.heap rest)
              = (some (toInt32 amount, (q.data.drop q.index).take amount),
                  ⟨q.id, q.len - amount, (q.index + amount) % 2 ^ 32, q.data⟩
                    :: segsOf t.heap rest) := by
            simp [specRecv, packet.seg, hlen]
          rw [hspec]
          constructor
          · intro h
            simp at h
          · intro ret bytes h
            simp only [Option.some.injEq, Prod.mk.injEq] at h
            obtain ⟨h1, h2⟩ := h
            subst h1 h2
            obtain ⟨hI, hS⟩ := inv_advance t pre rest a q (q.len - amount)
              ((q.index + amount) % 2 ^ 32) hi hq
            exact ⟨_, a :: rest, rfl, hI, hS, rfl, rfl, rfl⟩
      · have hsid : ¬ q.seg.id = id := hid
        rw [if_neg hid]
        simp only [specRecv, hsid, if_false]
        have hpre' : Walk t.heap t._packets (pre ++ [a]) q.next := by
          rw [walk_append]
          exact ⟨some a, hpre, rfl, q.next, by rw [hq]; rfl, rfl⟩
        have hi' : Inv t ((pre ++ [a]) ++ rest) := by
          rw [List.append_assoc]; exact hi
        obtain ⟨ih1, ih2⟩ := ih (pre ++ [a]) q.next n hi' hpre' hrest
          (by simp only [List.length_cons] at hfuel; omega)
        rw [lastLink_concat] at ih1 ih2
        constructor
        · exact ih1
        · intro ret bytes h
          obtain ⟨t', suf', e1, e2, e3, e4⟩ := ih2 ret bytes h
          simp only [List.append_assoc, List.singleton_append] at e2 e3
          refine ⟨t', a :: suf', e1, e2, ?_, e4⟩
          rw [e3, segsOf_append, segsOf_cons _ a [] q hq]
          simp [segsOf]

/-! ### The list-level description of the scan -/

theorem specRecv_none (id : Int) (amount : Nat) (q : List Segment)
    (h : (specRecv id amount q).1 = none) : (specRecv id amount q).2 = q := by
  induction q with
  | nil => rfl
  | cons g rest ih =>
    unfold specRecv at h ⊢
    by_cases hid : g.id = id
    · rw [if_pos hid] at h
      split at h <;> simp at h
    · rw [if_neg hid] at h ⊢
      simp only at h ⊢
      rw [ih h]

theorem specRecv_split (id : Int) (amount : Nat) (pre post : List Segment) (g : Segment)
    (hpre : ∀ x ∈ pre, x.id ≠ id) (hg : g.id = id) :
    specRecv id amount (pre ++ g :: post)
      = if g.len ≤ amount then (some (toInt32 g.len, g.remaining), pre ++ post)
        else (some (toInt32 amount, (g.data.drop g.index).take amount),
          pre ++ g.advance amount :: post) := by
  induction pre with
  | nil =>
    simp only [List.nil_append]
    unfold specRecv
    rw [if_pos hg]
    rfl
  | cons x rest ih =>
    simp only [List.cons_append]
    unfold specRecv
    rw [if_neg (hpre x (List.mem_cons_self _ _)),
      ih (fun z hz => hpre z (List.mem_cons_of_mem _ hz))]
    split <;> rfl

theorem recvScan_refines (id : Int) (amount : Nat) (t : Sockets) (as : List Addr)
    (hi : Inv t as) :
    ((specRecv id amount (queue t)).1 = none →
      recvScan id amount (t.heap.length + 1) Link.head t = some none) ∧
    (∀ ret bytes, (specRecv id amount (queue t)).1 = some (ret, bytes) →
      ∃ t', recvScan id amount (t.heap.length + 1) Link.head t = some (some (ret, bytes, t')) ∧
        WellFormed t' ∧ queue t' = (specRecv id amount (queue t)).2 ∧
        t'._id_bits = t._id_bits ∧ t'._server_act = t._server_act ∧
        t'._accept_id = t._accept_id) := by
  have h := recvScan_loop id amount t as [] t._packets (t.heap.length + 1)
    (by simpa using hi) rfl hi.chain (Nat.lt_succ_of_le hi.room)
  rw [queue_of_inv t as hi]
  refine ⟨h.1, ?_⟩
  intro ret bytes hs
  obtain ⟨t', suf', e1, e2, e3, e4⟩ := h.2 ret bytes hs
  simp only [List.nil_append] at e2 e3
  refine ⟨t', e1, ⟨suf', e2⟩, ?_, e4⟩
  rw [queue_of_inv t' suf' e2, e3]
  simp [segsOf]

theorem queue_socket_handler (c : Bool) (id : Int) (t : Sockets) :
    queue (socket_handler c id t) = queue t := by
  obtain ⟨h1, h2, _, _⟩ := socket_handler_frame c id t
  unfold queue chainAddrs
  rw [h1, h2]

theorem stepOp_refines (t : Sockets) (op : QueueOp) (hw : WellFormed t) :
    ∃ t', stepOp t op = some t' ∧ WellFormed t' ∧ queue t' = specStep (queue t) op := by
  obtain ⟨as, hi⟩ := hw
  cases op with
  | oob e =>
    cases e with
    | connect k =>
      exact ⟨_, rfl, ⟨as, inv_socket_handler _ _ _ _ hi⟩, queue_socket_handler _ _ _⟩
    | closed k =>
      exact ⟨_, rfl, ⟨as, inv_socket_handler _ _ _ _ hi⟩, queue_socket_handler _ _ _⟩
    | ipd f =>
      refine ⟨_, rfl, ?_⟩
      simp only [oobHandler, specStep, Frame.segment]
      cases hh : f.hdr with
      | none =>
        rw [packet_handler_drop f t (Or.inl hh)]
        exact ⟨⟨as, hi⟩, rfl⟩
      | some x =>
        obtain ⟨id, amount⟩ := x
        by_cases hm : f.mallocOk = true
        · by_cases ha : parser_read f.avail amount = 0
          · rw [packet_handler_drop f t (Or.inr (Or.inr ⟨id, amount, hh, ha⟩))]
            refine ⟨⟨as, hi⟩, ?_⟩
            simp [ha]
          · obtain ⟨hI, hS⟩ := inv_append f t as id amount hi hh hm ha
            refine ⟨⟨_, hI⟩, ?_⟩
            rw [queue_of_inv _ _ hI, hS, queue_of_inv t as hi]
            simp [hm, ha]
        · have hm' : f.mallocOk = false := by simpa using hm
          rw [packet_handler_drop f t (Or.inr (Or.inl hm'))]
          refine ⟨⟨as, hi⟩, ?_⟩
          simp [hm']
  | scan id amount =>
    obtain ⟨h1, h2⟩ := recvScan_refines id amount t as hi
    simp only [stepOp, specStep]
    cases hs : (specRecv id amount (queue t)).1 with
    | none =>
      rw [h1 hs]
      exact ⟨t, rfl, ⟨as, hi⟩, (specRecv_none id amount _ hs).symm⟩
    | some r =>
      obtain ⟨ret, bytes⟩ := r
      obtain ⟨t', e1, e2, e3, _⟩ := h2 ret bytes hs
      rw [e1]
      exact ⟨t', rfl, e2, e3⟩

theorem oob_refines (t : Sockets) (e : Oob) (hw : WellFormed t) :
    WellFormed (oobHandler t e) ∧ queue (oobHandler t e) = specStep (queue t) (QueueOp.oob e) := by
  obtain ⟨t', e1, w1, q1⟩ := stepOp_refines t (QueueOp.oob e) hw
  simp only [stepOp, Option.some.injEq] at e1
  subst e1
  exact ⟨w1, q1⟩

theorem wellFormed_foldl (evs : List Oob) (t : Sockets) (hw : WellFormed t) :
    WellFormed (evs.foldl oobHandler t) := by
  induction evs generalizing t with
  | nil => exact hw
  | cons e rest ih => exact ih _ (oob_refines t e hw).1

theorem recv_found (s : ESP32) (id : Int) (amount : Nat) (hw : WellFormed s.sock)
    (ret : Int) (bytes : List Nat)
    (h : (specRecv id amount (queue s.sock)).1 = some (ret, bytes)) :
    ∃ t', recv id amount s = some (ret, bytes, ⟨s.parser, s.baud, t'⟩) ∧ WellFormed t' ∧
      queue t' = (specRecv id amount (queue s.sock)).2 ∧
      t'._id_bits = s.sock._id_bits ∧ t'._server_act = s.sock._server_act ∧
      t'._accept_id = s.sock._accept_id := by
  obtain ⟨as, hi⟩ := hw
  obtain ⟨t', e1, e2⟩ := (recvScan_refines id amount s.sock as hi).2 ret bytes h
  refine ⟨t', ?_, e2⟩
  simp only [recv, recvLoop, e1]

theorem remaining_length (g : Segment) (h : g.index + g.len ≤ g.data.length) :
    g.remaining.length = g.len := by
  unfold Segment.remaining
  rw [List.length_take, List.length_drop]
  omega

theorem remaining_skip (g : Segment) (n : Nat) :
    (g.skip n).remaining = g.remaining.drop n := by
  unfold Segment.remaining Segment.skip
  simp only
  rw [List.drop_take, List.drop_drop]

theorem advance_eq_skip (g : Segment) (n : Nat) (h : g.index + n < 2 ^ 32) :
    g.advance n = g.skip n := by
  unfold Segment.advance Segment.skip
  rw [Nat.mod_eq_of_lt h]

theorem skip_skip (g : Segment) (m n : Nat) : (g.skip m).skip n = g.skip (m + n) := by
  unfold Segment.skip
  simp only [Nat.sub_sub, Nat.add_assoc]

/-- One call of `recv` on the first segment `g` for `id`. -/
theorem recv_first_segment (s : ESP32) (id : Int) (a : Nat) (pre post : List Segment)
    (g : Segment) (hw : WellFormed s.sock) (hq : queue s.sock = pre ++ g :: post)
    (hpre : ∀ x ∈ pre, x.id ≠ id) (hg : g.id = id)
    (hok : g.index + g.len ≤ g.data.length) (h31 : g.data.length < 2 ^ 31) :
    ∃ t', recv id a s = some (((min a g.len : Nat) : Int), g.remaining.take a,
        ⟨s.parser, s.baud, t'⟩) ∧
      WellFormed t' ∧
      queue t' = pre ++ (if g.len ≤ a then post else g.skip a :: post) := by
  have hsp := specRecv_split id a pre post g hpre hg
  by_cases hlen : g.len ≤ a
  · rw [if_pos hlen] at hsp
    obtain ⟨t', e1, e2, e3, _⟩ := recv_found s id a hw (toInt32 g.len) g.remaining
      (by rw [hq, hsp])
    refine ⟨t', ?_, e2, ?_⟩
    · rw [e1, toInt32_of_lt _ (by omega) (by exact_mod_cast (by omega : g.len < 2 ^ 31)),
        Nat.min_eq_right hlen,
        List.take_of_length_le (by rw [remaining_length g hok]; exact hlen)]
    · rw [e3, hq, hsp, if_pos hlen]
  · rw [if_neg hlen] at hsp
    obtain ⟨t', e1, e2, e3, _⟩ := recv_found s id a hw (toInt32 a)
      ((g.data.drop g.index).take a) (by rw [hq, hsp])
    refine ⟨t', ?_, e2, ?_⟩
    · have hmin : min a g.len = a := Nat.min_eq_left (by omega)
      have htake : g.remaining.take a = (g.data.drop g.index).take a := by
        unfold Segment.remaining
        rw [List.take_take, hmin]
      rw [e1, toInt32_of_lt _ (by omega) (by exact_mod_cast (by omega : a < 2 ^ 31)), hmin, htake]
    · rw [e3, hq, hsp, if_neg hlen, advance_eq_skip g a (by omega)]

theorem skip_zero (g : Segment) : g.skip 0 = g := rfl

theorem deliveries_concat (sizes : List Nat) (P : List Nat) :
    (deliveries P sizes).flatMap Prod.snd = P.take sizes.sum := by
  induction sizes generalizing P with
  | nil => simp [deliveries]
  | cons a rest ih =>
    simp only [deliveries, List.flatMap_cons, List.sum_cons]
    rw [ih, List.take_add]

theorem recvMany_keeps_segment (id : Int) (pre post : List Segment)
    (hpre : ∀ x ∈ pre, x.id ≠ id) :
    ∀ (sizes : List Nat) (s : ESP32) (g : Segment),
      WellFormed s.sock → queue s.sock = pre ++ g :: post → g.id = id →
      g.index + g.len ≤ g.data.length → g.data.length < 2 ^ 31 → sizes.sum < g.len →
      ∃ t', recvMany id sizes s
          = some (deliveries g.remaining sizes, ⟨s.parser, s.baud, t'⟩) ∧
        WellFormed t' ∧ queue t' = pre ++ g.skip sizes.sum :: post := by
  intro sizes
  induction sizes with
  | nil =>
    intro s g hw hq _ _ _ _
    exact ⟨s.sock, rfl, hw, by simpa [skip_zero] using hq⟩
  | cons a rest ih =>
    intro s g hw hq hg hok h31 hsum
    simp only [List.sum_cons] at hsum
    obtain ⟨t1, e1, w1, q1⟩ := recv_first_segment s id a pre post g hw hq hpre hg hok h31
    rw [if_neg (by omega)] at q1
    obtain ⟨t2, e2, w2, q2⟩ := ih ⟨s.parser, s.baud, t1⟩ (g.skip a) w1 q1 hg
      (by simp only [Segment.skip]; omega) h31 (by simp only [Segment.skip]; omega)
    refine ⟨t2, ?_, w2, ?_⟩
    · simp only [recvMany, e1, e2, deliveries, remaining_length g hok, remaining_skip]
    · rw [q2, skip_skip, List.sum_cons]

/-- C1: let `g` be the first segment for `id` in a well-formed packet queue,
with remaining payload `P = g.remaining` of fewer than `2^31` bytes.  After
successive calls `recv(id, buf, a_i)` that together asked for fewer than `|P|`
bytes, each call has returned `min a_i remaining` bytes, the bytes returned
are the corresponding prefix of `P` in order, and the segment is still queued
in its place with its cursor advanced; the next call `recv(id, buf, a)`
returns the next `min a remaining` bytes of `P`, and it removes the segment
exactly when it delivers the last byte (`|P| ≤ a_1 + ... + a`), in which case
the bytes returned by all the calls concatenate to `P`.  No call uses the
command channel, and the other segments keep their content and order. -/
theorem recv_drains_first_segment (s : ESP32) (id : Int) (pre post : List Segment)
    (g : Segment) (hw : WellFormed s.sock) (hq : queue s.sock = pre ++ g :: post)
    (hpre : ∀ x ∈ pre, x.id ≠ id) (hg : g.id = id)
    (hok : g.index + g.len ≤ g.data.length) (h31 : g.data.length < 2 ^ 31)
    (sizes : List Nat) (a : Nat) (hsum : sizes.sum < g.len) :
    ∃ s1 s2,
      recvMany id sizes s = some (deliveries g.remaining sizes, s1) ∧
      queue s1.sock = pre ++ g.skip sizes.sum :: post ∧
      recv id a s1 = some (((min a (g.len - sizes.sum) : Nat) : Int),
        (g.remaining.drop sizes.sum).take a, s2) ∧
      queue s2.sock
        = pre ++ (if g.len ≤ sizes.sum + a then post else g.skip (sizes.sum + a) :: post) ∧
      (deliveries g.remaining sizes).flatMap Prod.snd ++ (g.remaining.drop sizes.sum).take a
        = g.remaining.take (sizes.sum + a) ∧
      (g.len ≤ sizes.sum + a → g.remaining.take (sizes.sum + a) = g.remaining) ∧
      g.remaining.length = g.len ∧
      s2.parser = s.parser := by
  obtain ⟨t1, e1, w1, q1⟩ := recvMany_keeps_segment id pre post hpre sizes s g hw hq hg hok h31 hsum
  obtain ⟨t2, e2, _, q2⟩ := recv_first_segment ⟨s.parser, s.baud, t1⟩ id a pre post
    (g.skip sizes.sum) w1 q1 hpre hg (by simp only [Segment.skip]; omega) h31
  refine ⟨⟨s.parser, s.baud, t1⟩, ⟨s.parser, s.baud, t2⟩, e1, q1, ?_, ?_, ?_, ?_,
    remaining_length g hok, rfl⟩
  · rw [e2, remaining_skip]
    rfl
  · rw [q2, skip_skip]
    have : (g.skip sizes.sum).len ≤ a ↔ g.len ≤ sizes.sum + a := by
      simp only [Segment.skip]; omega
    by_cases h : g.len ≤ sizes.sum + a
    · rw [if_pos h, if_pos (this.2 h)]
    · rw [if_neg h, if_neg (fun h2 => h (this.1 h2))]
  · rw [deliveries_concat, List.take_add]
  · intro h
    exact List.take_of_length_le (by rw [remaining_length g hok]; exact h)

/-! ### Reading with nothing queued -/

theorem twoFrames_wellFormed : WellFormed twoFrames.sock :=
  wellFormed_foldl _ _ ⟨[], inv_ctor []⟩

theorem recv_drains_first_segment_witness :
    ∃ s1 s2,
      recvMany 1 [2, 1] twoFrames
        = some (deliveries (Segment.mk 1 5 0 [10, 11, 12, 13, 14]).remaining [2, 1], s1) ∧
      queue s1.sock = [Segment.mk 0 2 0 [1, 2]]
        ++ (Segment.mk 1 5 0 [10, 11, 12, 13, 14]).skip ([2, 1] : List Nat).sum :: [] ∧
      recv 1 4 s1
        = some (((min 4 ((Segment.mk 1 5 0 [10, 11, 12, 13, 14]).len
            - ([2, 1] : List Nat).sum) : Nat) : Int),
          ((Segment.mk 1 5 0 [10, 11, 12, 13, 14]).remaining.drop ([2, 1] : List Nat).sum).take 4,
          s2) ∧
      queue s2.sock = [Segment.mk 0 2 0 [1, 2]]
        ++ (if (Segment.mk 1 5 0 [10, 11, 12, 13, 14]).len ≤ ([2, 1] : List Nat).sum + 4 then []
            else (Segment.mk 1 5 0 [10, 11, 12, 13, 14]).skip (([2, 1] : List Nat).sum + 4)
              :: []) ∧
      (deliveries (Segment.mk 1 5 0 [10, 11, 12, 13, 14]).remaining [2, 1]).flatMap Prod.snd
          ++ ((Segment.mk 1 5 0 [10, 11, 12, 13, 14]).remaining.drop
            ([2, 1] : List Nat).sum).take 4
        = (Segment.mk 1 5 0 [10, 11, 12, 13, 14]).remaining.take (([2, 1] : List Nat).sum + 4) ∧
      ((Segment.mk 1 5 0 [10, 11, 12, 13, 14]).len ≤ ([2, 1] : List Nat).sum + 4 →
        (Segment.mk 1 5 0 [10, 11, 12, 13, 14]).remaining.take (([2, 1] : List Nat).sum + 4)
          = (Segment.mk 1 5 0 [10, 11, 12, 13, 14]).remaining) ∧
      (Segment.mk 1 5 0 [10, 11, 12, 13, 14]).remaining.length
        = (Segment.mk 1 5 0 [10, 11, 12, 13, 14]).len ∧
      s2.parser = twoFrames.parser :=
  recv_drains_first_segment twoFrames 1 [Segment.mk 0 2 0 [1, 2]] []
    (Segment.mk 1 5 0 [10, 11, 12, 13, 14]) twoFrames_wellFormed (by decide) (by decide) rfl
    (by decide) (by decide) [2, 1] 4 (by decide)

end ESP32Driver
